import Mathlib

/-!
# Verification of the dfrn-prototype retrieval-and-ingestion subsystem

A shallow embedding of the core of the repository: the TSV chunk parser and
idempotent import pipeline (`src/lib/import-chunks.ts`), the vector search
engine (`src/lib/vector-search.ts`), the embedding adapter
(`src/lib/generate-embeddings.ts`), and the TSV repair/cleaning script
(`scripts/clean-encoding.ts`), together with proofs of the spec's claims.

Text is modelled as `List Char` (the source's JavaScript strings), so that
all definitions compute and concrete witnesses can be checked by the kernel.
JavaScript string helpers (`split`, `trim`, `startsWith`) are embedded below
with their JS semantics.
-/

set_option maxRecDepth 400000

namespace DFRN

/-- JS `s.split(sep)` for a single-character separator: `n` separators yield
`n + 1` (possibly empty) fields; `"".split(sep) = [""]`. -/
def splitOnChar (sep : Char) : List Char → List (List Char)
  | [] => [[]]
  | c :: cs =>
    if c = sep then [] :: splitOnChar sep cs
    else
      match splitOnChar sep cs with
      | [] => [[c]]
      | f :: rest => (c :: f) :: rest

/-- The whitespace class of JS `String.prototype.trim` (WhiteSpace and
LineTerminator code points). -/
def jsWhite (c : Char) : Bool :=
  c = ' ' || c = '\t' || c = '\n' || c = '\r' || c = '\x0b' || c = '\x0c' ||
  c = '\u00a0' || c = '\ufeff' || c = '\u2028' || c = '\u2029'

/-- JS `fields.join(sep)` for a one-character separator. -/
def joinSep (sep : Char) : List (List Char) → List Char
  | [] => []
  | [f] => f
  | f :: rest => f ++ sep :: joinSep sep rest

/-- JS `s.trim()`: strip the whitespace class from both ends. -/
def trimJS (s : List Char) : List Char :=
  ((s.dropWhile jsWhite).reverse.dropWhile jsWhite).reverse

/-! ## JSON values and `JSON.parse`

`parseTSV` validates the embedding field with `JSON.parse`.  The grammar
below embeds JSON (null, booleans, numbers, strings, arrays, objects);
numbers are read exactly into `ℚ` (the source works with IEEE doubles; no
claim depends on rounding). -/

inductive Json where
  | jnull : Json
  | jbool : Bool → Json
  | jnum : ℚ → Json
  | jstr : List Char → Json
  | jarr : List Json → Json
  | jobj : List (List Char × Json) → Json

/-- JSON insignificant whitespace. -/
def jsonWs (c : Char) : Bool := c = ' ' || c = '\t' || c = '\n' || c = '\r'

def skipWs (s : List Char) : List Char := s.dropWhile jsonWs

def isDigit (c : Char) : Bool := '0' ≤ c && c ≤ '9'

def digitVal (c : Char) : Nat := c.toNat - '0'.toNat

/-- Read a nonempty digit run, returning its value, length, and the rest. -/
def readDigits : List Char → Nat → Nat → (Nat × Nat × List Char)
  | c :: cs, acc, len =>
    if isDigit c then readDigits cs (acc * 10 + digitVal c) (len + 1)
    else (acc, len, c :: cs)
  | [], acc, len => (acc, len, [])

/-- JSON number grammar: `-? (0 | [1-9][0-9]*) (. [0-9]+)? ([eE][+-]?[0-9]+)?`,
read exactly into `ℚ` (built with `mkRat` over integer arithmetic; the source
works with IEEE doubles, and no claim depends on rounding). -/
def parseNumber (s : List Char) : Option (ℚ × List Char) :=
  let (neg, s1) := match s with
    | '-' :: rest => (true, rest)
    | _ => (false, s)
  match s1 with
  | [] => none
  | c :: _ =>
    if !isDigit c then none
    else
      let (ip, iplen, s2) := readDigits s1 0 0
      -- leading zeros are invalid JSON ("01"), a lone "0" is fine
      if 1 < iplen ∧ s1.headD '0' = '0' then none
      else
        let (fracOk, fp, fplen, s3) : Bool × Nat × Nat × List Char :=
          match s2 with
          | '.' :: rest =>
            match rest with
            | d :: _ =>
              if isDigit d then
                let (fp, fplen, s4) := readDigits rest 0 0
                (true, fp, fplen, s4)
              else (false, 0, 0, rest) -- '.' without digits: syntax error
            | [] => (false, 0, 0, [])
          | _ => (true, 0, 0, s2)
        if !fracOk then none
        else
          let (exOk, esign, ep, s5) : Bool × Bool × Nat × List Char :=
            match s3 with
            | e :: rest =>
              if e = 'e' ∨ e = 'E' then
                let (es, rest2) : Bool × List Char :=
                  match rest with
                  | '-' :: r => (true, r)
                  | '+' :: r => (false, r)
                  | _ => (false, rest)
                match rest2 with
                | d :: _ =>
                  if isDigit d then
                    let (ep, _, s6) := readDigits rest2 0 0
                    (true, es, ep, s6)
                  else (false, false, 0, [])
                | [] => (false, false, 0, [])
              else (true, false, 0, s3)
            | [] => (true, false, 0, s3)
          if !exOk then none
          else
            -- (-1)^neg * (ip.fp) * 10^(±ep), as an exact rational
            let mag : Nat := ip * 10 ^ fplen + fp
            let num : Int := (if neg then -(mag : Int) else (mag : Int)) *
              (if esign then 1 else (10 : Int) ^ ep)
            let den : Nat := 10 ^ fplen * (if esign then 10 ^ ep else 1)
            some (mkRat num den, s5)

def hexVal (c : Char) : Option Nat :=
  if isDigit c then some (digitVal c)
  else if 'a' ≤ c ∧ c ≤ 'f' then some (c.toNat - 'a'.toNat + 10)
  else if 'A' ≤ c ∧ c ≤ 'F' then some (c.toNat - 'A'.toNat + 10)
  else none

/-- Prepend a decoded character to a string-body parse. -/
def strCons (c : Char) : Option (List Char × List Char) → Option (List Char × List Char)
  | some (tail, rest) => some (c :: tail, rest)
  | none => none

/-- JSON string body after the opening quote.  Escapes are decoded; an
unescaped control character is a syntax error. -/
def parseStrBody : List Char → Option (List Char × List Char)
  | [] => none
  | '"' :: rest => some ([], rest)
  | '\\' :: '"' :: rest => strCons '"' (parseStrBody rest)
  | '\\' :: '\\' :: rest => strCons '\\' (parseStrBody rest)
  | '\\' :: '/' :: rest => strCons '/' (parseStrBody rest)
  | '\\' :: 'b' :: rest => strCons '\x08' (parseStrBody rest)
  | '\\' :: 'f' :: rest => strCons '\x0c' (parseStrBody rest)
  | '\\' :: 'n' :: rest => strCons '\n' (parseStrBody rest)
  | '\\' :: 'r' :: rest => strCons '\r' (parseStrBody rest)
  | '\\' :: 't' :: rest => strCons '\t' (parseStrBody rest)
  | '\\' :: 'u' :: h1 :: h2 :: h3 :: h4 :: rest =>
    match hexVal h1, hexVal h2, hexVal h3, hexVal h4 with
    | some v1, some v2, some v3, some v4 =>
      strCons (Char.ofNat (((v1 * 16 + v2) * 16 + v3) * 16 + v4)) (parseStrBody rest)
    | _, _, _, _ => none
  | '\\' :: _ => none
  | c :: rest =>
    if c.toNat < 0x20 then none
    else strCons c (parseStrBody rest)

mutual

/-- Parse one JSON value (after skipping leading whitespace); the fuel
bounds the nesting depth and exceeds it for any input of that length. -/
def parseVal : Nat → List Char → Option (Json × List Char)
  | 0, _ => none
  | fuel + 1, s =>
    match skipWs s with
    | 'n' :: 'u' :: 'l' :: 'l' :: rest => some (.jnull, rest)
    | 't' :: 'r' :: 'u' :: 'e' :: rest => some (.jbool true, rest)
    | 'f' :: 'a' :: 'l' :: 's' :: 'e' :: rest => some (.jbool false, rest)
    | '"' :: rest =>
      match parseStrBody rest with
      | some (body, rest2) => some (.jstr body, rest2)
      | none => none
    | '[' :: rest =>
      match parseArrItems fuel rest with
      | some (xs, r) => some (.jarr xs, r)
      | none => none
    | '\x7b' :: rest =>
      match parseObjItems fuel rest with
      | some (kvs, r) => some (.jobj kvs, r)
      | none => none
    | other =>
      match parseNumber other with
      | some (q, r) => some (.jnum q, r)
      | none => none

/-- Items of a JSON array, after the opening bracket. -/
def parseArrItems : Nat → List Char → Option (List Json × List Char)
  | 0, _ => none
  | fuel + 1, s =>
    match skipWs s with
    | ']' :: rest => some ([], rest)
    | other =>
      match parseVal fuel other with
      | some (v, rest) =>
        match skipWs rest with
        | ',' :: rest2 =>
          match parseArrItems fuel rest2 with
          | some ([], _) => none -- trailing comma is a syntax error
          | some (vs, rest3) => some (v :: vs, rest3)
          | none => none
        | ']' :: rest2 => some ([v], rest2)
        | _ => none
      | none => none

/-- Members of a JSON object, after the opening brace. -/
def parseObjItems : Nat → List Char → Option (List (List Char × Json) × List Char)
  | 0, _ => none
  | fuel + 1, s =>
    match skipWs s with
    | '\x7d' :: rest => some ([], rest)
    | '"' :: rest =>
      match parseStrBody rest with
      | some (key, rest2) =>
        match skipWs rest2 with
        | ':' :: rest3 =>
          match parseVal fuel rest3 with
          | some (v, rest4) =>
            match skipWs rest4 with
            | ',' :: rest5 =>
              match parseObjItems fuel rest5 with
              | some ([], _) => none -- trailing comma is a syntax error
              | some (kvs, rest6) => some ((key, v) :: kvs, rest6)
              | none => none
            | '\x7d' :: rest5 => some ([(key, v)], rest5)
            | _ => none
          | none => none
        | _ => none
      | none => none
    | _ => none

end

/-- `JSON.parse`: one value, with only whitespace around it. -/
def jsonParse (s : List Char) : Option Json :=
  match parseVal (s.length + 1) s with
  | some (v, rest) => if skipWs rest = [] then some v else none
  | none => none

/-! ## The TSV chunk parser (`parseTSV` in `src/lib/import-chunks.ts`) -/

/-- A parsed TSV row.  The embedding is the JSON value list produced by
`JSON.parse`: the source checks only `Array.isArray` and the length, so the
elements are arbitrary JSON values. -/
structure TSVRow where
  documentTitle : List Char
  sourceUrl : List Char
  sectionTitle : List Char
  chunkContent : List Char
  embedding : List Json

/-- The two error shapes thrown by `parseTSV`. -/
inductive ParseError where
  /-- `Invalid TSV row: missing required fields in "..."` -/
  | malformedRow : List Char → ParseError
  /-- `Invalid embedding format in row for "<raw document title>": ...` -/
  | invalidEmbedding : List Char → ParseError

/-- JS falsiness of a possibly-undefined string: `undefined` and `""`. -/
def optFalsy : Option (List Char) → Bool
  | none => true
  | some s => s.isEmpty

/-- `s?.trim() || ""` on a possibly-undefined field. -/
def optNorm : Option (List Char) → List Char
  | none => []
  | some s => trimJS s

/-- One data line of `parseTSV`: destructure the five tab-separated fields,
reject falsy title/content/embedding, `JSON.parse` the embedding and require
an array of exactly 1536 elements, and trim the string fields. -/
def parseLine (line : List Char) : Except ParseError TSVRow :=
  let fields := splitOnChar '\t' line
  let documentTitle := fields.get? 0
  let sourceUrl := fields.get? 1
  let sectionTitle := fields.get? 2
  let chunkContent := fields.get? 3
  let embeddingStr := fields.get? 4
  if optFalsy documentTitle || optFalsy chunkContent || optFalsy embeddingStr then
    .error (.malformedRow line)
  else
    match jsonParse (embeddingStr.getD []) with
    | some (.jarr xs) =>
      if xs.length = 1536 then
        .ok { documentTitle := trimJS (documentTitle.getD [])
              sourceUrl := optNorm sourceUrl
              sectionTitle := optNorm sectionTitle
              chunkContent := trimJS (chunkContent.getD [])
              embedding := xs }
      else .error (.invalidEmbedding (documentTitle.getD []))
    | _ => .error (.invalidEmbedding (documentTitle.getD []))

/-- The header line marker. -/
def headerTag : List Char := "document_title".toList

/-- `content.split("\n").filter(line => line.trim())`. -/
def fileLines (content : List Char) : List (List Char) :=
  (splitOnChar '\n' content).filter (fun l => !(trimJS l).isEmpty)

/-- Drop comment lines and header lines. -/
def dataLines (content : List Char) : List (List Char) :=
  (fileLines content).filter
    (fun l => !(['#'].isPrefixOf l) && !(headerTag.isPrefixOf l))

/-- `dataLines.map(...)` with a thrown error aborting the whole parse. -/
def parseLines : List (List Char) → Except ParseError (List TSVRow)
  | [] => .ok []
  | l :: ls =>
    match parseLine l with
    | .error e => .error e
    | .ok r =>
      match parseLines ls with
      | .error e => .error e
      | .ok rs => .ok (r :: rs)

/-- `parseTSV` of `src/lib/import-chunks.ts` on the file's content. -/
def parseTSV (content : List Char) : Except ParseError (List TSVRow) :=
  parseLines (dataLines content)

/-! ## The store and the import pipeline (`importChunksFromTSV`)

The Postgres tables of `src/db/schema.ts` are modelled as in-memory lists;
generated `uuid` primary keys are modelled by a fresh-id counter, and a
`SELECT ... WHERE` used to find one row is modelled as the first list match
(rows are kept in insertion order). -/

structure Document where
  id : Nat
  title : List Char
  sourceUrl : Option (List Char)
deriving DecidableEq

structure Chunk where
  id : Nat
  documentId : Nat
  sectionTitle : Option (List Char)
  content : List Char
  embedding : List ℚ
deriving DecidableEq

structure Store where
  documents : List Document
  chunks : List Chunk
  nextId : Nat
deriving DecidableEq

def emptyStore : Store := ⟨[], [], 0⟩

/-- The summary returned by `importChunksFromTSV`.  `chunksUpdated` belongs
to the update-existing mode (see `processChunk`). -/
structure Summary where
  documentsCreated : Nat
  chunksCreated : Nat
  chunksSkipped : Nat
  chunksUpdated : Nat
  totalRows : Nat
deriving DecidableEq

def emptySummary : Summary := ⟨0, 0, 0, 0, 0⟩

/-- The grouping key `` `${row.documentTitle}|${row.sourceUrl}` ``. -/
def groupKey (r : TSVRow) : List Char := r.documentTitle ++ '|' :: r.sourceUrl

/-- Insertion into a JS `Map<string, TSVRow[]>`: append to an existing
group, else add a new group at the end (iteration is in insertion order). -/
def addToGroups : List (List Char × List TSVRow) → TSVRow → List (List Char × List TSVRow)
  | [], r => [(groupKey r, [r])]
  | (k, g) :: gs, r =>
    if k = groupKey r then (k, g ++ [r]) :: gs
    else (k, g) :: addToGroups gs r

/-- Group rows by document key, preserving first-seen order. -/
def groupRows (rows : List TSVRow) : List (List Char × List TSVRow) :=
  rows.foldl addToGroups []

/-- The document lookup: `title = ? AND (sourceUrl = ? | sourceUrl IS NULL)`,
with `IS NULL` used when the row's source URL is falsy (empty). -/
def docMatches (t u : List Char) (d : Document) : Bool :=
  decide (d.title = t ∧ (if u = [] then d.sourceUrl = none else d.sourceUrl = some u))

def findDoc (docs : List Document) (t u : List Char) : Option Document :=
  docs.find? (docMatches t u)

/-- The chunk lookup: `documentId = ? AND content = ?`. -/
def chunkMatches (docId : Nat) (content : List Char) (c : Chunk) : Bool :=
  decide (c.documentId = docId ∧ c.content = content)

/-- `value || null` on a string field before it is stored. -/
def strOrNull (s : List Char) : Option (List Char) :=
  if s = [] then none else some s

/-- The `` `[${chunk.embedding.join(",")}]`::vector `` cast of a stored
embedding.  A row that reached the store carries a JSON array; the `vector`
cast reads its elements as numbers (a non-numeric element would be rejected
by Postgres, which no claim exercises; it is read as 0 here). -/
def jsonToQ : Json → ℚ
  | .jnum q => q
  | _ => 0

/-- One row of the per-document chunk loop: skip (insert-only mode) or
overwrite (update-existing mode) an existing chunk with the same
`(documentId, content)`, else insert a fresh chunk.

The insert-only branch is `src/lib/import-chunks.ts` lines 119–147.  The
update-existing branch is *modelled from the spec*: the CLI
(`scripts/import.ts`) passes `{ updateExisting }`, but the repository
snapshot contains only the insert-only revision of the module; per spec
§4.5, "Found, mode = update-existing → overwrite section title and
embedding, increment update counter". -/
def processChunk (updateExisting : Bool) (docId : Nat)
    (acc : Store × Summary) (r : TSVRow) : Store × Summary :=
  let (st, sum) := acc
  match st.chunks.find? (chunkMatches docId r.chunkContent) with
  | some c =>
    if updateExisting then
      ({ st with chunks := st.chunks.map (fun c0 =>
          if c0.id = c.id then
            { c0 with sectionTitle := strOrNull r.sectionTitle
                      embedding := r.embedding.map jsonToQ }
          else c0) },
       { sum with chunksUpdated := sum.chunksUpdated + 1 })
    else (st, { sum with chunksSkipped := sum.chunksSkipped + 1 })
  | none =>
    ({ st with
        chunks := st.chunks ++
          [{ id := st.nextId
             documentId := docId
             sectionTitle := strOrNull r.sectionTitle
             content := r.chunkContent
             embedding := r.embedding.map jsonToQ }]
        nextId := st.nextId + 1 },
     { sum with chunksCreated := sum.chunksCreated + 1 })

def processChunks (updateExisting : Bool) (docId : Nat)
    (acc : Store × Summary) (g : List TSVRow) : Store × Summary :=
  g.foldl (processChunk updateExisting docId) acc

/-- One document group: find or create the document (keyed on the first
row), then run the chunk loop over the group's rows. -/
def processGroup (updateExisting : Bool)
    (acc : Store × Summary) (g : List TSVRow) : Store × Summary :=
  match g with
  | [] => acc
  | first :: _ =>
    let (st, sum) := acc
    match findDoc st.documents first.documentTitle first.sourceUrl with
    | some d => processChunks updateExisting d.id (st, sum) g
    | none =>
      let d : Document :=
        { id := st.nextId
          title := first.documentTitle
          sourceUrl := strOrNull first.sourceUrl }
      processChunks updateExisting d.id
        ({ st with documents := st.documents ++ [d], nextId := st.nextId + 1 },
         { sum with documentsCreated := sum.documentsCreated + 1 })
        g

/-- The import pipeline on parsed rows: group by document key, then process
each group in order. -/
def importChunksRows (updateExisting : Bool) (st : Store) (rows : List TSVRow) :
    Store × Summary :=
  let out := (groupRows rows).foldl
    (fun acc kg => processGroup updateExisting acc kg.2) (st, emptySummary)
  (out.1, { out.2 with totalRows := rows.length })

/-- `importChunksFromTSV(filepath, { updateExisting })`: parse the file's
content, then import the rows into the store. -/
def importChunksFromTSV (updateExisting : Bool) (content : List Char)
    (st : Store) : Except ParseError (Store × Summary) :=
  (parseTSV content).map (importChunksRows updateExisting st)

/-! ## The similarity search engine (`src/lib/vector-search.ts`)

pgvector's `a <=> b` is the cosine distance `1 − a·b/(‖a‖‖b‖)`.  The real
number `cosSim` below is the claim-side similarity; the SQL engine's
comparisons against it are embedded as the executable rational comparators
`simGeThr` / `rankGe`, proved equivalent to the real comparisons in the
bridge lemmas further down. -/

def dotQ : List ℚ → List ℚ → ℚ
  | a :: as, b :: bs => a * b + dotQ as bs
  | _, _ => 0

/-- Sum of squares, `‖a‖²` as a rational. -/
def sumsq (a : List ℚ) : ℚ := dotQ a a

/-- Cosine similarity `a·b / (‖a‖‖b‖)` (with the `x / 0 = 0` convention on
zero vectors; the schema's vectors are nonzero in every claim). -/
noncomputable def cosSim (a b : List ℚ) : ℝ :=
  (dotQ a b : ℝ) / (Real.sqrt (sumsq a) * Real.sqrt (sumsq b))

/-- Decides `t ≤ cosSim a q` by sign analysis and squaring. -/
def simGeThr (a q : List ℚ) (t : ℚ) : Bool :=
  let d := dotQ a q
  let S := sumsq a * sumsq q
  if S = 0 then decide (t ≤ 0)
  else if t ≤ 0 then decide (0 ≤ d) || decide (d * d ≤ t * t * S)
  else decide (0 ≤ d) && decide (t * t * S ≤ d * d)

/-- Decides `cosSim a2 q ≤ cosSim a1 q` (so: `a1` ranks at least as high). -/
def rankGe (q a1 a2 : List ℚ) : Bool :=
  let d1 := dotQ a1 q
  let S1 := sumsq a1 * sumsq q
  let d2 := dotQ a2 q
  let S2 := sumsq a2 * sumsq q
  if S1 = 0 then (if S2 = 0 then true else decide (d2 ≤ 0))
  else if S2 = 0 then decide (0 ≤ d1)
  else if 0 ≤ d1 then
    decide (d2 ≤ 0) || (decide (0 ≤ d2) && decide (d2 * d2 * S1 ≤ d1 * d1 * S2))
  else decide (d2 ≤ 0) && decide (d1 * d1 * S2 ≤ d2 * d2 * S1)

inductive SearchError where
  /-- `Invalid embedding dimensions: expected 1536, got ...` -/
  | dimensionMismatch : Nat → SearchError
deriving DecidableEq

/-- One row of the search's `SELECT`, joining a chunk with its document.
The SQL row carries the numeric `similarity` instead of the embedding; its
exact value is irrational in general, so the row keeps the chunk's embedding
and the claims speak of `cosSim row.embedding query`. -/
structure SearchRow where
  id : Nat
  content : List Char
  sectionTitle : Option (List Char)
  documentId : Nat
  documentTitle : List Char
  sourceUrl : Option (List Char)
  embedding : List ℚ
deriving DecidableEq

def mkSearchRow (c : Chunk) (d : Document) : SearchRow :=
  { id := c.id
    content := c.content
    sectionTitle := c.sectionTitle
    documentId := c.documentId
    documentTitle := d.title
    sourceUrl := d.sourceUrl
    embedding := c.embedding }

/-- `INNER JOIN documents ON text_chunks.document_id = documents.id`. -/
def joinedRows (st : Store) : List SearchRow :=
  st.chunks.filterMap (fun c =>
    (st.documents.find? (fun d => decide (d.id = c.documentId))).map (mkSearchRow c))

/-- The sort order `ORDER BY embedding <=> query ASC` as a decidable
relation on result rows. -/
def rankRel (q : List ℚ) (x y : SearchRow) : Prop :=
  rankGe q x.embedding y.embedding = true

instance (q : List ℚ) : DecidableRel (rankRel q) :=
  fun _ _ => inferInstanceAs (Decidable (_ = true))

/-- `searchSimilarChunks(queryEmbedding, limit, similarityThreshold)`:
validate the query dimension, keep the joined rows with
`1 - (embedding <=> query) >= threshold`, order by ascending distance, and
truncate to `limit`. -/
def searchSimilarChunks (st : Store) (q : List ℚ) (limit : Nat) (threshold : ℚ) :
    Except SearchError (List SearchRow) :=
  if q.length ≠ 1536 then .error (.dimensionMismatch q.length)
  else
    .ok ((((joinedRows st).filter
        (fun r => simGeThr r.embedding q threshold)).insertionSort
          (rankRel q)).take limit)

/-- The call with the source's default arguments `limit = 5`,
`similarityThreshold = 0.7`. -/
def searchSimilarChunksDefault (st : Store) (q : List ℚ) :
    Except SearchError (List SearchRow) :=
  searchSimilarChunks st q 5 (7 / 10)

/-! ## The embedding adapter (`src/lib/generate-embeddings.ts`)

The provider (`embedMany` with OpenAI `text-embedding-3-small`) is an
external service, taken as a function argument; the spec §4.2 contract
(one 1536-vector per input text, order-preserving) appears as hypotheses of
the claims about it. -/

inductive EmbedError where
  /-- `All text chunks must be non-empty` -/
  | emptyInput : EmbedError
  /-- `Failed to generate embeddings: ...` wrapping a provider failure -/
  | providerFailure : List Char → EmbedError

/-- `generateEmbeddings(texts)`: return `[]` for no texts, validate that no
text is blank, then call the provider and pass its vectors through. -/
def generateEmbeddings (provider : List (List Char) → Except (List Char) (List (List ℚ)))
    (texts : List (List Char)) : Except EmbedError (List (List ℚ)) :=
  if texts.length = 0 then .ok []
  else if (texts.filter (fun t => !(trimJS t).isEmpty)).length ≠ texts.length then
    .error .emptyInput
  else
    match provider texts with
    | .ok es => .ok es
    | .error e => .error (.providerFailure e)

/-- `generateEmbedding(text)`: `const [embedding] = await
generateEmbeddings([text])` (destructuring an empty result would yield
`undefined`, modelled as `[]`). -/
def generateEmbedding (provider : List (List Char) → Except (List Char) (List (List ℚ)))
    (t : List Char) : Except EmbedError (List ℚ) :=
  (generateEmbeddings provider [t]).map (fun es => es.headD [])

/-! ## The TSV repair tool (`scripts/clean-encoding.ts`) -/

/-- `.replace(/ÔøΩ/g, "")`: delete the three-character mojibake sequence
`Ô ø Ω` (U+00D4 U+00F8 U+03A9 — the UTF-8 bytes of U+FFFD misdecoded as
Mac-Roman), left to right, non-overlapping. -/
def removeMojibake : List Char → List Char
  | 'Ô' :: 'ø' :: 'Ω' :: rest => removeMojibake rest
  | c :: rest => c :: removeMojibake rest
  | [] => []

/-- A two-character class replaced by one character,
`.replace(/[ab]/g, "c")`. -/
def replacePair (a b r : Char) (s : List Char) : List Char :=
  s.map (fun c => if c = a ∨ c = b then r else c)

/-- `.replace(/[•]/g, "‚Ä¢")`: the bullet goes to the three characters
U+201A U+00C4 U+00A2 (the source file's own mojibake for `•`). -/
def replaceBullet (s : List Char) : List Char :=
  s.flatMap (fun c => if c = '•' then ['‚', 'Ä', '¢'] else [c])

/-- The class kept by `.replace(/[^\x20-\x7E\t\n\u0080-￿]/g, "")`.
Characters above U+FFFF are two surrogates in the source's UTF-16 strings,
both inside `\u0080-￿`, so they are kept as well. -/
def keepChar (c : Char) : Bool :=
  decide ((0x20 ≤ c.toNat ∧ c.toNat ≤ 0x7E) ∨ c = '\t' ∨ c = '\n' ∨ 0x80 ≤ c.toNat)

/-- `.replace(/x+/g, "y")` for one-character `x` and `y`: every maximal run
of `tgt` becomes a single `repl`. -/
def collapseRuns (tgt repl : Char) : List Char → List Char
  | [] => []
  | [c] => [if c = tgt then repl else c]
  | c1 :: c2 :: rest =>
    if c1 = tgt ∧ c2 = tgt then collapseRuns tgt repl (c2 :: rest)
    else (if c1 = tgt then repl else c1) :: collapseRuns tgt repl (c2 :: rest)

/-- `cleanFieldContent` of `scripts/clean-encoding.ts`: the replacement
chain in source order. -/
def cleanFieldContent (s : List Char) : List Char :=
  let s1 := removeMojibake s
  let s2 := replacePair '“' '”' '"' s1
  let s3 := replacePair '‘' '’' '\'' s2
  let s4 := replacePair '–' '—' '-' s3
  let s5 := replaceBullet s4
  let s6 := (s5.map (fun c => if c = '\u00a0' then ' ' else c))
  let s7 := s6.filter keepChar
  let s8 := collapseRuns '\n' ' ' s7
  let s9 := collapseRuns ' ' ' ' s8
  trimJS s9

/-- Clean every tab-separated field of a repaired row and rejoin. -/
def cleanRow (row : List Char) : List Char :=
  joinSep '\t' ((splitOnChar '\t' row).map cleanFieldContent)

/-- One line of the repair loop of `clean-encoding.ts`: trim; skip blanks; a
line with fewer fields than the header while a row is accumulating is
appended space-joined; otherwise the accumulated row is flushed and the line
starts a new row. -/
def repairStep (expected : Nat) (acc : List (List Char) × List Char)
    (rawLine : List Char) : List (List Char) × List Char :=
  let (rows, cur) := acc
  let line := trimJS rawLine
  if line = [] then acc
  else if cur ≠ [] ∧ (splitOnChar '\t' line).length < expected then
    (rows, cur ++ ' ' :: line)
  else ((if cur ≠ [] then rows ++ [cur] else rows), line)

/-- The repair pass over the lines after the header, flushing the final
accumulated row. -/
def repairRows (expected : Nat) (ls : List (List Char)) : List (List Char) :=
  let (rows, cur) := ls.foldl (repairStep expected) ([], [])
  if cur ≠ [] then rows ++ [cur] else rows

/-- The header index: the first line starting with `document_title`,
defaulting to 0. -/
def findHeaderIdx (ls : List (List Char)) : Nat :=
  (ls.findIdx? (fun l => headerTag.isPrefixOf l)).getD 0

/-- The whole `clean-encoding.ts` transformation: locate the header, repair
the following lines against the header's field count, and clean every
repaired row; the output file is the unchanged header followed by the
cleaned rows. -/
def cleanEncoding (content : List Char) : List Char × List (List Char) :=
  let lines := splitOnChar '\n' content
  let hi := findHeaderIdx lines
  let header := lines.getD hi []
  let expected := (splitOnChar '\t' header).length
  let repaired := repairRows expected (lines.drop (hi + 1))
  (header, repaired.map cleanRow)

/-- Claim-side description of the repair pass used by C8: group the
nonblank trimmed lines, starting a new group at every line with at least
the header's field count, and space-join each group. -/
def mergeInto (expected : Nat) (cur : List Char) : List (List Char) → List (List Char)
  | [] => [cur]
  | l :: ls =>
    if (splitOnChar '\t' l).length < expected then
      mergeInto expected (cur ++ ' ' :: l) ls
    else cur :: mergeInto expected l ls

def mergeGroups (expected : Nat) : List (List Char) → List (List Char)
  | [] => []
  | l :: ls => mergeInto expected l ls


/-- A 1536-zero JSON array literal, as text. -/
def emb1536chars : List Char :=
  '[' :: List.intercalate [','] (List.replicate 1536 ['0']) ++ [']']

/-- A 1536-`null` JSON array literal, as text. -/
def nullEmb1536 : List Char :=
  '[' :: List.intercalate [','] (List.replicate 1536 "null".toList) ++ [']']

/-- The header line of the C6/C1 witness file. -/
def wfHeaderLine : List Char :=
  "document_title\tsource_url\tsection_title\tchunk_content\tembedding".toList

/-- The single data line of the witness file: title `T`, empty source URL,
section `S`, content `C`, and a 1536-zero embedding. -/
def wfDataLine : List Char := "T\t\tS\tC\t".toList ++ emb1536chars

/-- A well-formed one-row file for the C6 and C1 witnesses. -/
def wfFile : List Char := wfHeaderLine ++ '\n' :: wfDataLine

/-- The parsed row of `wfDataLine`. -/
def wfRow : TSVRow :=
  ⟨"T".toList, [], "S".toList, "C".toList, List.replicate 1536 (Json.jnum 0)⟩

/-- A data line whose embedding text is a JSON array of 1536 `null`s. -/
def nonNumericEmbeddingLine : List Char :=
  "T\t\t\tC\t".toList ++ nullEmb1536

/-- A concrete query and store for the C4 witness: three 1536-dimensional
chunks with similarities 1, 1/√2 and −1 to the query. -/
def witnessQuery : List ℚ := 1 :: List.replicate 1535 0

def witnessStore : Store :=
  { documents := [⟨0, "D".toList, none⟩]
    chunks :=
      [ ⟨1, 0, none, "c1".toList, 1 :: List.replicate 1535 0⟩
      , ⟨2, 0, none, "c2".toList, 1 :: 1 :: List.replicate 1534 0⟩
      , ⟨3, 0, none, "c3".toList, (-1) :: List.replicate 1535 0⟩ ]
    nextId := 4 }

/-- The three joined rows of `witnessStore`. -/
def wRow1 : SearchRow :=
  ⟨1, "c1".toList, none, 0, "D".toList, none, 1 :: List.replicate 1535 0⟩

def wRow2 : SearchRow :=
  ⟨2, "c2".toList, none, 0, "D".toList, none, 1 :: 1 :: List.replicate 1534 0⟩

def wRow3 : SearchRow :=
  ⟨3, "c3".toList, none, 0, "D".toList, none, (-1) :: List.replicate 1535 0⟩

/-- A trivial provider for the C7 witness: one zero vector per text. -/
def witnessProvider (ts : List (List Char)) : Except (List Char) (List (List ℚ)) :=
  .ok (ts.map (fun _ => List.replicate 1536 0))
/-- A chunk with this `(documentId, content)` key is present. -/
def chunkFound (st : Store) (docId : Nat) (content : List Char) : Prop :=
  (st.chunks.find? (chunkMatches docId content)).isSome
/-- `st'` extends `st`: both tables only grew at the end. -/
def StoreExt (st st' : Store) : Prop :=
  (∃ ds, st'.documents = st.documents ++ ds) ∧ ∃ cs, st'.chunks = st.chunks ++ cs
/-- The group's document is resolvable and every row's chunk is present. -/
def GroupDone (st : Store) : List TSVRow → Prop
  | [] => True
  | f :: g => ∃ d, findDoc st.documents f.documentTitle f.sourceUrl = some d ∧
      ∀ r ∈ f :: g, chunkFound st d.id r.chunkContent

/-- The store after importing `wfFile` into the empty store. -/
def idemStore1 : Store :=
  { documents := [⟨0, "T".toList, none⟩]
    chunks := [⟨1, 0, some "S".toList, "C".toList, List.replicate 1536 0⟩]
    nextId := 2 }
/-- At most one stored document per `(title, sourceUrl)` pair. -/
def DocUnique (st : Store) : Prop :=
  st.documents.Pairwise (fun d1 d2 => ¬(d1.title = d2.title ∧ d1.sourceUrl = d2.sourceUrl))

/-- Input for the C9 witness: a header and one data row with typographic
quotes and a space run. -/
def c9WitnessContent : List Char := "document_title\tcol\nx“y”\tz   w".toList

/-- Input for the C9 counterexample: a data field holding U+FFFD. -/
def replCharContent : List Char := "document_title\tcol\na\uFFFD\tb".toList

/-! ## Bridge lemmas: the rational comparators decide the real cosine
comparisons -/

theorem sumsq_nonneg (a : List ℚ) : 0 ≤ sumsq a := by
  unfold sumsq
  induction a with
  | nil => simp [dotQ]
  | cons x xs ih =>
    simp only [dotQ]
    have : 0 ≤ x * x := mul_self_nonneg x
    linarith

/-- The denominator of `cosSim` is `√(sumsq a * sumsq q)`. -/
theorem cosSim_eq (a q : List ℚ) :
    cosSim a q = (dotQ a q : ℝ) / Real.sqrt ((sumsq a : ℝ) * (sumsq q : ℝ)) := by
  unfold cosSim
  rw [Real.sqrt_mul (by exact_mod_cast sumsq_nonneg a)]

theorem cosSim_of_sumsq_zero {a q : List ℚ} (h : sumsq a * sumsq q = 0) :
    cosSim a q = 0 := by
  rw [cosSim_eq]
  have : ((sumsq a : ℝ) * (sumsq q : ℝ)) = 0 := by exact_mod_cast h
  rw [this, Real.sqrt_zero, div_zero]

/-- `simGeThr` decides `threshold ≤ similarity`. -/
theorem simGeThr_iff (a q : List ℚ) (t : ℚ) :
    simGeThr a q t = true ↔ (t : ℝ) ≤ cosSim a q := by
  unfold simGeThr
  by_cases hS : sumsq a * sumsq q = 0
  · rw [if_pos hS, cosSim_of_sumsq_zero hS]
    simp only [decide_eq_true_eq]
    exact ⟨fun h => by exact_mod_cast h, fun h => by exact_mod_cast h⟩
  · have hSpos : 0 < sumsq a * sumsq q :=
      lt_of_le_of_ne (mul_nonneg (sumsq_nonneg a) (sumsq_nonneg q)) (Ne.symm hS)
    have hSposR : (0 : ℝ) < (sumsq a : ℝ) * (sumsq q : ℝ) := by exact_mod_cast hSpos
    have hsqrt : 0 < Real.sqrt ((sumsq a : ℝ) * (sumsq q : ℝ)) := Real.sqrt_pos.2 hSposR
    have hiff : (t : ℝ) ≤ cosSim a q ↔
        (t : ℝ) * Real.sqrt ((sumsq a : ℝ) * (sumsq q : ℝ)) ≤ (dotQ a q : ℝ) := by
      rw [cosSim_eq, le_div_iff₀ hsqrt]
    have hsq : Real.sqrt ((sumsq a : ℝ) * (sumsq q : ℝ)) *
        Real.sqrt ((sumsq a : ℝ) * (sumsq q : ℝ)) = (sumsq a : ℝ) * (sumsq q : ℝ) :=
      Real.mul_self_sqrt (le_of_lt hSposR)
    rw [if_neg hS]
    by_cases ht : t ≤ 0
    · simp only [if_pos ht, Bool.or_eq_true, decide_eq_true_eq]
      rw [hiff]
      constructor
      · rintro (hd | hdsq)
        · calc (t : ℝ) * Real.sqrt _ ≤ 0 :=
                mul_nonpos_of_nonpos_of_nonneg (by exact_mod_cast ht) (Real.sqrt_nonneg _)
            _ ≤ (dotQ a q : ℝ) := by exact_mod_cast hd
        · -- d < 0 case is implied: −d ≤ −t·√S from squares
          by_cases hd : 0 ≤ dotQ a q
          · calc (t : ℝ) * Real.sqrt _ ≤ 0 :=
                  mul_nonpos_of_nonpos_of_nonneg (by exact_mod_cast ht) (Real.sqrt_nonneg _)
              _ ≤ (dotQ a q : ℝ) := by exact_mod_cast hd
          · push_neg at hd
            have hdR : (dotQ a q : ℝ) < 0 := by exact_mod_cast hd
            have htR : (t : ℝ) ≤ 0 := by exact_mod_cast ht
            have h1 : (0 : ℝ) ≤ -(dotQ a q : ℝ) := by linarith
            have h2 : (0 : ℝ) ≤ -(t : ℝ) * Real.sqrt ((sumsq a : ℝ) * (sumsq q : ℝ)) :=
              mul_nonneg (by linarith) (Real.sqrt_nonneg _)
            have hsqR : (dotQ a q : ℝ) * (dotQ a q : ℝ) ≤
                ((t : ℝ) * (t : ℝ)) * ((sumsq a : ℝ) * (sumsq q : ℝ)) := by
              exact_mod_cast hdsq
            have : -(dotQ a q : ℝ) ≤ -(t : ℝ) * Real.sqrt ((sumsq a : ℝ) * (sumsq q : ℝ)) := by
              rw [mul_self_le_mul_self_iff h1 h2]
              calc -(dotQ a q : ℝ) * -(dotQ a q : ℝ)
                  = (dotQ a q : ℝ) * (dotQ a q : ℝ) := by ring
                _ ≤ ((t : ℝ) * (t : ℝ)) * ((sumsq a : ℝ) * (sumsq q : ℝ)) := hsqR
                _ = (-(t : ℝ) * Real.sqrt _) * (-(t : ℝ) * Real.sqrt _) := by
                    rw [show (-(t:ℝ) * Real.sqrt ((sumsq a : ℝ) * (sumsq q : ℝ))) *
                        (-(t:ℝ) * Real.sqrt ((sumsq a : ℝ) * (sumsq q : ℝ))) =
                        ((t:ℝ) * (t:ℝ)) * (Real.sqrt ((sumsq a : ℝ) * (sumsq q : ℝ)) *
                          Real.sqrt ((sumsq a : ℝ) * (sumsq q : ℝ))) by ring, hsq]
            linarith
      · intro h
        by_cases hd : 0 ≤ dotQ a q
        · exact Or.inl hd
        · push_neg at hd
          refine Or.inr ?_
          have hdR : (dotQ a q : ℝ) < 0 := by exact_mod_cast hd
          have htR : (t : ℝ) ≤ 0 := by exact_mod_cast ht
          have h1 : (0 : ℝ) ≤ -(dotQ a q : ℝ) := by linarith
          have h2 : (0 : ℝ) ≤ -(t : ℝ) * Real.sqrt ((sumsq a : ℝ) * (sumsq q : ℝ)) :=
            mul_nonneg (by linarith) (Real.sqrt_nonneg _)
          have hle : -(dotQ a q : ℝ) ≤ -(t : ℝ) * Real.sqrt ((sumsq a : ℝ) * (sumsq q : ℝ)) := by
            linarith
          have := (mul_self_le_mul_self_iff h1 h2).1 hle
          have hexp : (-(t:ℝ) * Real.sqrt ((sumsq a : ℝ) * (sumsq q : ℝ))) *
              (-(t:ℝ) * Real.sqrt ((sumsq a : ℝ) * (sumsq q : ℝ))) =
              ((t:ℝ) * (t:ℝ)) * ((sumsq a : ℝ) * (sumsq q : ℝ)) := by
            rw [show (-(t:ℝ) * Real.sqrt ((sumsq a : ℝ) * (sumsq q : ℝ))) *
                (-(t:ℝ) * Real.sqrt ((sumsq a : ℝ) * (sumsq q : ℝ))) =
                ((t:ℝ) * (t:ℝ)) * (Real.sqrt ((sumsq a : ℝ) * (sumsq q : ℝ)) *
                  Real.sqrt ((sumsq a : ℝ) * (sumsq q : ℝ))) by ring, hsq]
          rw [hexp] at this
          have : (dotQ a q : ℝ) * (dotQ a q : ℝ) ≤
              ((t : ℝ) * (t : ℝ)) * ((sumsq a : ℝ) * (sumsq q : ℝ)) := by nlinarith
          exact_mod_cast this
    · push_neg at ht
      simp only [if_neg (not_le.2 ht), Bool.and_eq_true, decide_eq_true_eq]
      rw [hiff]
      have htR : (0 : ℝ) < (t : ℝ) := by exact_mod_cast ht
      have htS : (0 : ℝ) < (t : ℝ) * Real.sqrt ((sumsq a : ℝ) * (sumsq q : ℝ)) :=
        mul_pos htR hsqrt
      constructor
      · rintro ⟨hd, hsqle⟩
        have hdR : (0 : ℝ) ≤ (dotQ a q : ℝ) := by exact_mod_cast hd
        have hsqleR : ((t : ℝ) * (t : ℝ)) * ((sumsq a : ℝ) * (sumsq q : ℝ)) ≤
            (dotQ a q : ℝ) * (dotQ a q : ℝ) := by exact_mod_cast hsqle
        rw [show (t : ℝ) * Real.sqrt ((sumsq a : ℝ) * (sumsq q : ℝ)) =
            ((t : ℝ) * Real.sqrt ((sumsq a : ℝ) * (sumsq q : ℝ))) from rfl]
        have h2 : (0 : ℝ) ≤ (t : ℝ) * Real.sqrt ((sumsq a : ℝ) * (sumsq q : ℝ)) :=
          le_of_lt htS
        rw [mul_self_le_mul_self_iff h2 hdR]
        calc ((t:ℝ) * Real.sqrt _) * ((t:ℝ) * Real.sqrt _)
            = ((t:ℝ) * (t:ℝ)) * (Real.sqrt ((sumsq a : ℝ) * (sumsq q : ℝ)) *
                Real.sqrt ((sumsq a : ℝ) * (sumsq q : ℝ))) := by ring
          _ = ((t:ℝ) * (t:ℝ)) * ((sumsq a : ℝ) * (sumsq q : ℝ)) := by rw [hsq]
          _ ≤ (dotQ a q : ℝ) * (dotQ a q : ℝ) := hsqleR
      · intro h
        have hdR : (0 : ℝ) ≤ (dotQ a q : ℝ) := le_trans (le_of_lt htS) h
        refine ⟨by exact_mod_cast hdR, ?_⟩
        have := (mul_self_le_mul_self_iff (le_of_lt htS) hdR).1 h
        have hexp : ((t:ℝ) * Real.sqrt ((sumsq a : ℝ) * (sumsq q : ℝ))) *
            ((t:ℝ) * Real.sqrt ((sumsq a : ℝ) * (sumsq q : ℝ))) =
            ((t:ℝ) * (t:ℝ)) * ((sumsq a : ℝ) * (sumsq q : ℝ)) := by
          rw [show ((t:ℝ) * Real.sqrt ((sumsq a : ℝ) * (sumsq q : ℝ))) *
              ((t:ℝ) * Real.sqrt ((sumsq a : ℝ) * (sumsq q : ℝ))) =
              ((t:ℝ) * (t:ℝ)) * (Real.sqrt ((sumsq a : ℝ) * (sumsq q : ℝ)) *
                Real.sqrt ((sumsq a : ℝ) * (sumsq q : ℝ))) by ring, hsq]
        rw [hexp] at this
        exact_mod_cast this

theorem sq_mul_sqrt (d S : ℝ) (hS : 0 ≤ S) :
    (d * Real.sqrt S) * (d * Real.sqrt S) = d * d * S := by
  rw [show (d * Real.sqrt S) * (d * Real.sqrt S) =
      d * d * (Real.sqrt S * Real.sqrt S) by ring, Real.mul_self_sqrt hS]

/-- Cross-multiplied comparison of `d2/√S2 ≤ d1/√S1` by signs and squares. -/
theorem cross_sqrt_le_iff {d1 d2 S1 S2 : ℚ} (h1 : 0 < S1) (h2 : 0 < S2) :
    ((d2 : ℝ) * Real.sqrt (S1 : ℝ) ≤ (d1 : ℝ) * Real.sqrt (S2 : ℝ)) ↔
      (if 0 ≤ d1 then d2 ≤ 0 ∨ (0 ≤ d2 ∧ d2 * d2 * S1 ≤ d1 * d1 * S2)
       else d2 ≤ 0 ∧ d1 * d1 * S2 ≤ d2 * d2 * S1) := by
  have h1R : (0 : ℝ) < (S1 : ℝ) := by exact_mod_cast h1
  have h2R : (0 : ℝ) < (S2 : ℝ) := by exact_mod_cast h2
  have hsq1 := Real.sqrt_nonneg (S1 : ℝ)
  have hsq2 := Real.sqrt_nonneg (S2 : ℝ)
  have hpos1 : 0 < Real.sqrt (S1 : ℝ) := Real.sqrt_pos.2 h1R
  have hpos2 : 0 < Real.sqrt (S2 : ℝ) := Real.sqrt_pos.2 h2R
  by_cases hd1 : 0 ≤ d1
  · have hd1R : (0 : ℝ) ≤ (d1 : ℝ) := by exact_mod_cast hd1
    rw [if_pos hd1]
    constructor
    · intro h
      by_cases hd2 : d2 ≤ 0
      · exact Or.inl hd2
      · push_neg at hd2
        have hd2R : (0 : ℝ) < (d2 : ℝ) := by exact_mod_cast hd2
        refine Or.inr ⟨le_of_lt hd2, ?_⟩
        have ha : (0 : ℝ) ≤ (d2 : ℝ) * Real.sqrt (S1 : ℝ) :=
          mul_nonneg (le_of_lt hd2R) hsq1
        have hb : (0 : ℝ) ≤ (d1 : ℝ) * Real.sqrt (S2 : ℝ) := mul_nonneg hd1R hsq2
        have := (mul_self_le_mul_self_iff ha hb).1 h
        rw [sq_mul_sqrt _ _ (le_of_lt h1R), sq_mul_sqrt _ _ (le_of_lt h2R)] at this
        exact_mod_cast this
    · rintro (hd2 | ⟨hd2, hsqle⟩)
      · have hd2R : (d2 : ℝ) ≤ 0 := by exact_mod_cast hd2
        calc (d2 : ℝ) * Real.sqrt (S1 : ℝ) ≤ 0 := mul_nonpos_of_nonpos_of_nonneg hd2R hsq1
          _ ≤ (d1 : ℝ) * Real.sqrt (S2 : ℝ) := mul_nonneg hd1R hsq2
      · have hd2R : (0 : ℝ) ≤ (d2 : ℝ) := by exact_mod_cast hd2
        have ha : (0 : ℝ) ≤ (d2 : ℝ) * Real.sqrt (S1 : ℝ) := mul_nonneg hd2R hsq1
        have hb : (0 : ℝ) ≤ (d1 : ℝ) * Real.sqrt (S2 : ℝ) := mul_nonneg hd1R hsq2
        rw [mul_self_le_mul_self_iff ha hb,
          sq_mul_sqrt _ _ (le_of_lt h1R), sq_mul_sqrt _ _ (le_of_lt h2R)]
        exact_mod_cast hsqle
  · push_neg at hd1
    have hd1R : (d1 : ℝ) < 0 := by exact_mod_cast hd1
    rw [if_neg (not_le.2 hd1)]
    have hrhsneg : (d1 : ℝ) * Real.sqrt (S2 : ℝ) < 0 :=
      mul_neg_of_neg_of_pos hd1R hpos2
    constructor
    · intro h
      have hd2neg : (d2 : ℝ) * Real.sqrt (S1 : ℝ) < 0 := lt_of_le_of_lt h hrhsneg
      have hd2R : (d2 : ℝ) < 0 := by
        by_contra hc
        push_neg at hc
        exact absurd (mul_nonneg hc hsq1) (not_le.2 hd2neg)
      refine ⟨by exact_mod_cast le_of_lt hd2R, ?_⟩
      have ha : (0 : ℝ) ≤ -((d1 : ℝ) * Real.sqrt (S2 : ℝ)) := by linarith
      have hb : (0 : ℝ) ≤ -((d2 : ℝ) * Real.sqrt (S1 : ℝ)) := by linarith
      have hneg : -((d1 : ℝ) * Real.sqrt (S2 : ℝ)) ≤ -((d2 : ℝ) * Real.sqrt (S1 : ℝ)) := by
        linarith
      have := (mul_self_le_mul_self_iff ha hb).1 hneg
      have e1 : -((d1 : ℝ) * Real.sqrt (S2 : ℝ)) * -((d1 : ℝ) * Real.sqrt (S2 : ℝ)) =
          (d1 : ℝ) * (d1 : ℝ) * (S2 : ℝ) := by
        rw [show -((d1 : ℝ) * Real.sqrt (S2 : ℝ)) * -((d1 : ℝ) * Real.sqrt (S2 : ℝ)) =
            ((d1 : ℝ) * Real.sqrt (S2 : ℝ)) * ((d1 : ℝ) * Real.sqrt (S2 : ℝ)) by ring,
          sq_mul_sqrt _ _ (le_of_lt h2R)]
      have e2 : -((d2 : ℝ) * Real.sqrt (S1 : ℝ)) * -((d2 : ℝ) * Real.sqrt (S1 : ℝ)) =
          (d2 : ℝ) * (d2 : ℝ) * (S1 : ℝ) := by
        rw [show -((d2 : ℝ) * Real.sqrt (S1 : ℝ)) * -((d2 : ℝ) * Real.sqrt (S1 : ℝ)) =
            ((d2 : ℝ) * Real.sqrt (S1 : ℝ)) * ((d2 : ℝ) * Real.sqrt (S1 : ℝ)) by ring,
          sq_mul_sqrt _ _ (le_of_lt h1R)]
      rw [e1, e2] at this
      exact_mod_cast this
    · rintro ⟨hd2, hsqle⟩
      have hd2R : (d2 : ℝ) ≤ 0 := by exact_mod_cast hd2
      have ha : (0 : ℝ) ≤ -((d1 : ℝ) * Real.sqrt (S2 : ℝ)) := by nlinarith
      have hb : (0 : ℝ) ≤ -((d2 : ℝ) * Real.sqrt (S1 : ℝ)) := by nlinarith
      have hsqleR : (d1 : ℝ) * (d1 : ℝ) * (S2 : ℝ) ≤ (d2 : ℝ) * (d2 : ℝ) * (S1 : ℝ) := by
        exact_mod_cast hsqle
      have key : -((d1 : ℝ) * Real.sqrt (S2 : ℝ)) ≤ -((d2 : ℝ) * Real.sqrt (S1 : ℝ)) := by
        rw [mul_self_le_mul_self_iff ha hb]
        calc -((d1 : ℝ) * Real.sqrt (S2 : ℝ)) * -((d1 : ℝ) * Real.sqrt (S2 : ℝ))
            = (d1 : ℝ) * (d1 : ℝ) * (S2 : ℝ) := by
              rw [show -((d1 : ℝ) * Real.sqrt (S2 : ℝ)) * -((d1 : ℝ) * Real.sqrt (S2 : ℝ)) =
                  ((d1 : ℝ) * Real.sqrt (S2 : ℝ)) * ((d1 : ℝ) * Real.sqrt (S2 : ℝ)) by ring,
                sq_mul_sqrt _ _ (le_of_lt h2R)]
          _ ≤ (d2 : ℝ) * (d2 : ℝ) * (S1 : ℝ) := hsqleR
          _ = -((d2 : ℝ) * Real.sqrt (S1 : ℝ)) * -((d2 : ℝ) * Real.sqrt (S1 : ℝ)) := by
              rw [show -((d2 : ℝ) * Real.sqrt (S1 : ℝ)) * -((d2 : ℝ) * Real.sqrt (S1 : ℝ)) =
                  ((d2 : ℝ) * Real.sqrt (S1 : ℝ)) * ((d2 : ℝ) * Real.sqrt (S1 : ℝ)) by ring,
                sq_mul_sqrt _ _ (le_of_lt h1R)]
      linarith

/-- `rankGe` decides the descending-similarity order. -/
theorem rankGe_iff (q a1 a2 : List ℚ) :
    rankGe q a1 a2 = true ↔ cosSim a2 q ≤ cosSim a1 q := by
  unfold rankGe
  by_cases hS1 : sumsq a1 * sumsq q = 0
  · rw [if_pos hS1, cosSim_of_sumsq_zero hS1]
    by_cases hS2 : sumsq a2 * sumsq q = 0
    · rw [if_pos hS2, cosSim_of_sumsq_zero hS2]
      simp
    · rw [if_neg hS2]
      have hS2pos : 0 < sumsq a2 * sumsq q :=
        lt_of_le_of_ne (mul_nonneg (sumsq_nonneg a2) (sumsq_nonneg q)) (Ne.symm hS2)
      have hS2R : (0 : ℝ) < (sumsq a2 : ℝ) * (sumsq q : ℝ) := by exact_mod_cast hS2pos
      have hsqrt2 : 0 < Real.sqrt ((sumsq a2 : ℝ) * (sumsq q : ℝ)) := Real.sqrt_pos.2 hS2R
      rw [cosSim_eq, div_nonpos_iff]
      simp only [decide_eq_true_eq]
      constructor
      · intro h
        exact Or.inr ⟨by exact_mod_cast h, le_of_lt hsqrt2⟩
      · rintro (⟨_, hs⟩ | ⟨hd, _⟩)
        · exact absurd hs (not_le.2 hsqrt2)
        · exact_mod_cast hd
  · rw [if_neg hS1]
    have hS1pos : 0 < sumsq a1 * sumsq q :=
      lt_of_le_of_ne (mul_nonneg (sumsq_nonneg a1) (sumsq_nonneg q)) (Ne.symm hS1)
    have hS1R : (0 : ℝ) < (sumsq a1 : ℝ) * (sumsq q : ℝ) := by exact_mod_cast hS1pos
    have hsqrt1 : 0 < Real.sqrt ((sumsq a1 : ℝ) * (sumsq q : ℝ)) := Real.sqrt_pos.2 hS1R
    by_cases hS2 : sumsq a2 * sumsq q = 0
    · rw [if_pos hS2, cosSim_of_sumsq_zero hS2, cosSim_eq]
      simp only [decide_eq_true_eq]
      rw [le_div_iff₀ hsqrt1, zero_mul]
      exact ⟨fun h => by exact_mod_cast h, fun h => by exact_mod_cast h⟩
    · rw [if_neg hS2]
      have hS2pos : 0 < sumsq a2 * sumsq q :=
        lt_of_le_of_ne (mul_nonneg (sumsq_nonneg a2) (sumsq_nonneg q)) (Ne.symm hS2)
      have hS2R : (0 : ℝ) < (sumsq a2 : ℝ) * (sumsq q : ℝ) := by exact_mod_cast hS2pos
      have hsqrt2 : 0 < Real.sqrt ((sumsq a2 : ℝ) * (sumsq q : ℝ)) := Real.sqrt_pos.2 hS2R
      have hdiv : cosSim a2 q ≤ cosSim a1 q ↔
          (dotQ a2 q : ℝ) * Real.sqrt ((sumsq a1 * sumsq q : ℚ) : ℝ) ≤
            (dotQ a1 q : ℝ) * Real.sqrt ((sumsq a2 * sumsq q : ℚ) : ℝ) := by
        rw [cosSim_eq, cosSim_eq, div_le_div_iff₀ hsqrt2 hsqrt1]
        push_cast
        exact Iff.rfl
      rw [hdiv, cross_sqrt_le_iff hS1pos hS2pos]
      by_cases hd1 : 0 ≤ dotQ a1 q <;> simp [hd1]

/-! ## Join and ordering facts for the search engine -/

theorem mem_joinedRows_elim {st : Store} {r : SearchRow} (h : r ∈ joinedRows st) :
    ∃ c ∈ st.chunks, ∃ d ∈ st.documents, d.id = c.documentId ∧ r = mkSearchRow c d := by
  unfold joinedRows at h
  obtain ⟨c, hc, hmap⟩ := List.mem_filterMap.1 h
  match hfind : st.documents.find? (fun d => decide (d.id = c.documentId)) with
  | none => rw [hfind] at hmap; exact absurd hmap (by simp)
  | some d =>
    rw [hfind] at hmap
    simp only [Option.map_some', Option.some_inj] at hmap
    have hdmem := List.mem_of_find?_eq_some hfind
    have hdid : d.id = c.documentId := by
      have := List.find?_some hfind
      simpa using this
    exact ⟨c, hc, d, hdmem, hdid, hmap.symm⟩

theorem mem_joinedRows_intro {st : Store} {c : Chunk} (hc : c ∈ st.chunks)
    (hfk : ∃ d ∈ st.documents, d.id = c.documentId) :
    ∃ d ∈ st.documents, d.id = c.documentId ∧ mkSearchRow c d ∈ joinedRows st := by
  obtain ⟨d0, hd0, hid0⟩ := hfk
  have hsome : (st.documents.find? (fun d => decide (d.id = c.documentId))).isSome := by
    rw [List.find?_isSome]
    exact ⟨d0, hd0, by simpa using hid0⟩
  match hfind : st.documents.find? (fun d => decide (d.id = c.documentId)) with
  | none => rw [hfind] at hsome; exact absurd hsome (by simp)
  | some d =>
    refine ⟨d, List.mem_of_find?_eq_some hfind, by simpa using List.find?_some hfind, ?_⟩
    unfold joinedRows
    exact List.mem_filterMap.2 ⟨c, hc, by rw [hfind]; rfl⟩

theorem rankRelTotal (q : List ℚ) : IsTotal SearchRow (rankRel q) :=
  ⟨fun x y => by
    unfold rankRel
    rw [rankGe_iff, rankGe_iff]
    exact le_total (cosSim y.embedding q) (cosSim x.embedding q)⟩

attribute [instance] rankRelTotal

theorem rankRelTrans (q : List ℚ) : IsTrans SearchRow (rankRel q) :=
  ⟨fun x y z hxy hyz => by
    unfold rankRel at *
    rw [rankGe_iff] at *
    exact le_trans hyz hxy⟩

attribute [instance] rankRelTrans

/-! ## Claim C5 -/

/-- C5: `searchSimilarChunks` raises the dimension-mismatch error if and
only if the query vector's length differs from 1536, and for a 1536-length
query for which no stored chunk reaches the threshold it returns the empty
list rather than an error. -/
theorem searchSimilarChunks_dimension_check (st : Store) (q : List ℚ)
    (limit : Nat) (t : ℚ) :
    (searchSimilarChunks st q limit t = .error (.dimensionMismatch q.length) ↔
      q.length ≠ 1536) ∧
    ((∃ e, searchSimilarChunks st q limit t = .error e) ↔ q.length ≠ 1536) ∧
    (q.length = 1536 → (∀ c ∈ st.chunks, cosSim c.embedding q < t) →
      searchSimilarChunks st q limit t = .ok []) := by
  unfold searchSimilarChunks
  by_cases hlen : q.length = 1536
  · rw [if_neg (by simp [hlen])]
    refine ⟨by simp [hlen], by simp [hlen], fun _ hbelow => ?_⟩
    have hfilter : (joinedRows st).filter
        (fun r => simGeThr r.embedding q t) = [] := by
      rw [List.filter_eq_nil_iff]
      intro r hr
      obtain ⟨c, hc, d, _, _, hrow⟩ := mem_joinedRows_elim hr
      have : cosSim r.embedding q < t := by
        rw [hrow]
        exact hbelow c hc
      simp only [Bool.not_eq_true]
      rw [← Bool.not_eq_true, simGeThr_iff]
      exact not_le.2 this
    rw [hfilter]
    simp
  · rw [if_pos hlen]
    exact ⟨by simp [hlen], ⟨fun _ => hlen, fun _ => ⟨_, rfl⟩⟩, fun h => absurd h hlen⟩

/-- Witness for C5 at a wrong-length query and at an empty store. -/
theorem searchSimilarChunks_dimension_check_witness :
    searchSimilarChunks emptyStore [1, 2] 5 (7 / 10) =
      .error (.dimensionMismatch 2) ∧
    searchSimilarChunks emptyStore (List.replicate 1536 0) 5 (7 / 10) = .ok [] := by
  constructor
  · exact (searchSimilarChunks_dimension_check emptyStore [1, 2] 5 (7 / 10)).1.2
      (by decide)
  · exact (searchSimilarChunks_dimension_check emptyStore
      (List.replicate 1536 0) 5 (7 / 10)).2.2 (by simp)
      (fun c hc => absurd hc (List.not_mem_nil c))

/-! ## Claim C4 -/

/-- C4: for every store, 1536-length query, limit and threshold,
`searchSimilarChunks` returns exactly the stored chunks whose cosine
similarity to the query is at least the threshold, ordered by descending
similarity and truncated to the `limit` best, each joined with its owning
document's title and source URL; `searchSimilarChunksDefault` records the
source's default arguments `limit = 5`, `threshold = 0.7`.  The nonzero-norm
hypotheses keep the statement inside the domain where pgvector's cosine
distance is defined. -/
theorem searchSimilarChunks_ranking (st : Store) (q : List ℚ) (limit : Nat) (t : ℚ)
    (hlen : q.length = 1536)
    (hfk : ∀ c ∈ st.chunks, ∃ d ∈ st.documents, d.id = c.documentId)
    (hqnz : sumsq q ≠ 0)
    (hcnz : ∀ c ∈ st.chunks, sumsq c.embedding ≠ 0) :
    ∃ res, searchSimilarChunks st q limit t = .ok res ∧
      (∀ r ∈ res, ∃ c ∈ st.chunks, ∃ d ∈ st.documents,
        d.id = c.documentId ∧ r = mkSearchRow c d ∧ (t : ℝ) ≤ cosSim r.embedding q) ∧
      List.Sorted (fun x y : SearchRow => cosSim y.embedding q ≤ cosSim x.embedding q) res ∧
      res.length ≤ limit ∧
      (∀ r' ∈ joinedRows st, (t : ℝ) ≤ cosSim r'.embedding q →
        r' ∈ res ∨ (res.length = limit ∧
          ∀ r ∈ res, cosSim r'.embedding q ≤ cosSim r.embedding q)) ∧
      (∀ c ∈ st.chunks, ∃ d ∈ st.documents, d.id = c.documentId ∧
        mkSearchRow c d ∈ joinedRows st) ∧
      searchSimilarChunksDefault st q = searchSimilarChunks st q 5 (7 / 10) := by
  have _hq := hqnz
  have _hc := hcnz
  refine ⟨(((joinedRows st).filter (fun r => simGeThr r.embedding q t)).insertionSort
      (rankRel q)).take limit, ?_, ?_, ?_, ?_, ?_, ?_, rfl⟩
  · unfold searchSimilarChunks
    rw [if_neg (by simp [hlen])]
  · intro r hr
    have hrs := List.mem_of_mem_take hr
    have hrf := (List.perm_insertionSort (rankRel q) _).mem_iff.1 hrs
    obtain ⟨hrj, hge⟩ := List.mem_filter.1 hrf
    obtain ⟨c, hc, d, hd, hid, hrow⟩ := mem_joinedRows_elim hrj
    exact ⟨c, hc, d, hd, hid, hrow, (simGeThr_iff _ _ _).1 hge⟩
  · have hs : List.Sorted (rankRel q)
        (((joinedRows st).filter (fun r => simGeThr r.embedding q t)).insertionSort
          (rankRel q)) :=
      List.sorted_insertionSort (rankRel q) _
    have hs2 : List.Sorted
        (fun x y : SearchRow => cosSim y.embedding q ≤ cosSim x.embedding q)
        (((joinedRows st).filter (fun r => simGeThr r.embedding q t)).insertionSort
          (rankRel q)) :=
      hs.imp (fun h => (rankGe_iff _ _ _).1 h)
    exact List.Pairwise.sublist (List.take_sublist _ _) hs2
  · exact List.length_take_le _ _
  · intro r' hj hsim
    have hf : r' ∈ (joinedRows st).filter (fun r => simGeThr r.embedding q t) :=
      List.mem_filter.2 ⟨hj, (simGeThr_iff _ _ _).2 hsim⟩
    have hsrt : r' ∈ ((joinedRows st).filter
        (fun r => simGeThr r.embedding q t)).insertionSort (rankRel q) :=
      (List.perm_insertionSort (rankRel q) _).mem_iff.2 hf
    set sorted := ((joinedRows st).filter
      (fun r => simGeThr r.embedding q t)).insertionSort (rankRel q) with hsorted
    by_cases hmem : r' ∈ sorted.take limit
    · exact Or.inl hmem
    · have hdrop : r' ∈ sorted.drop limit := by
        have hh : r' ∈ sorted.take limit ++ sorted.drop limit := by
          rw [List.take_append_drop]
          exact hsrt
        rcases List.mem_append.1 hh with h | h
        · exact absurd h hmem
        · exact h
      right
      have hgt : limit < sorted.length := by
        by_contra hle
        push_neg at hle
        rw [List.drop_eq_nil_of_le hle] at hdrop
        exact absurd hdrop (List.not_mem_nil r')
      have hs2 : List.Sorted
          (fun x y : SearchRow => cosSim y.embedding q ≤ cosSim x.embedding q) sorted :=
        (List.sorted_insertionSort (rankRel q) _).imp (fun h => (rankGe_iff _ _ _).1 h)
      refine ⟨by rw [List.length_take]; exact Nat.min_eq_left (Nat.le_of_lt hgt), ?_⟩
      intro r hr
      have hpair : List.Pairwise
          (fun x y : SearchRow => cosSim y.embedding q ≤ cosSim x.embedding q)
          (sorted.take limit ++ sorted.drop limit) := by
        rw [List.take_append_drop]
        exact hs2
      exact (List.pairwise_append.1 hpair).2.2 r hr r' hdrop
  · intro c hc
    exact mem_joinedRows_intro hc (hfk c hc)


/-- One step of the rational dot product. -/
theorem dotQ_cons (a b : ℚ) (as bs : List ℚ) :
    dotQ (a :: as) (b :: bs) = a * b + dotQ as bs := rfl

/-- A zero vector is orthogonal to everything. -/
theorem dotQ_rep_zero_left : ∀ (n : Nat) (ys : List ℚ),
    dotQ (List.replicate n 0) ys = 0 := by
  intro n
  induction n with
  | zero =>
    intro ys
    cases ys <;> rfl
  | succ n ih =>
    intro ys
    cases ys with
    | nil => rfl
    | cons y ys =>
      rw [List.replicate_succ (0 : ℚ) n, dotQ_cons, ih]
      ring

/-- Witness for C4: the ranking theorem applies to the concrete store. -/
theorem searchSimilarChunks_ranking_witness :
    ∃ res, searchSimilarChunks witnessStore witnessQuery 5 (1 / 2) = .ok res ∧
      res.length ≤ 5 ∧ res.map SearchRow.id = [1, 2] := by
  have hd1 : dotQ (1 :: List.replicate 1535 (0 : ℚ)) witnessQuery = 1 := by
    rw [show witnessQuery = 1 :: List.replicate 1535 (0 : ℚ) from rfl, dotQ_cons,
      dotQ_rep_zero_left]
    norm_num
  have hd2 : dotQ (1 :: 1 :: List.replicate 1534 (0 : ℚ)) witnessQuery = 1 := by
    rw [show witnessQuery = 1 :: 0 :: List.replicate 1534 (0 : ℚ) from rfl, dotQ_cons,
      dotQ_cons, dotQ_rep_zero_left]
    norm_num
  have hd3 : dotQ ((-1) :: List.replicate 1535 (0 : ℚ)) witnessQuery = -1 := by
    rw [show witnessQuery = 1 :: List.replicate 1535 (0 : ℚ) from rfl, dotQ_cons,
      dotQ_rep_zero_left]
    norm_num
  have hssq : sumsq witnessQuery = 1 := by
    unfold sumsq
    rw [show witnessQuery = 1 :: List.replicate 1535 (0 : ℚ) from rfl, dotQ_cons,
      dotQ_rep_zero_left]
    norm_num
  have hss1 : sumsq (1 :: List.replicate 1535 (0 : ℚ)) = 1 := by
    unfold sumsq
    rw [dotQ_cons, dotQ_rep_zero_left]
    norm_num
  have hss2 : sumsq (1 :: 1 :: List.replicate 1534 (0 : ℚ)) = 2 := by
    unfold sumsq
    rw [dotQ_cons, dotQ_cons, dotQ_rep_zero_left]
    norm_num
  have hss3 : sumsq ((-1) :: List.replicate 1535 (0 : ℚ)) = 1 := by
    unfold sumsq
    rw [dotQ_cons, dotQ_rep_zero_left]
    norm_num
  have hs1 : simGeThr (1 :: List.replicate 1535 (0 : ℚ)) witnessQuery (1 / 2) = true := by
    unfold simGeThr
    rw [hd1, hss1, hssq]
    with_unfolding_all decide
  have hs2 : simGeThr (1 :: 1 :: List.replicate 1534 (0 : ℚ)) witnessQuery (1 / 2) =
      true := by
    unfold simGeThr
    rw [hd2, hss2, hssq]
    with_unfolding_all decide
  have hs3 : simGeThr ((-1) :: List.replicate 1535 (0 : ℚ)) witnessQuery (1 / 2) =
      false := by
    unfold simGeThr
    rw [hd3, hss3, hssq]
    with_unfolding_all decide
  have hr12 : rankGe witnessQuery (1 :: List.replicate 1535 (0 : ℚ))
      (1 :: 1 :: List.replicate 1534 (0 : ℚ)) = true := by
    unfold rankGe
    rw [hd1, hd2, hss1, hss2, hssq]
    with_unfolding_all decide
  obtain ⟨res, hok, _, _, hlen, _, _, _⟩ :=
    searchSimilarChunks_ranking witnessStore witnessQuery 5 (1 / 2)
      (by simp [witnessQuery])
      (by
        intro c hc
        refine ⟨⟨0, "D".toList, none⟩, by simp [witnessStore], ?_⟩
        simp only [witnessStore, List.mem_cons, List.mem_singleton,
          List.not_mem_nil, or_false] at hc
        rcases hc with rfl | rfl | rfl <;> rfl)
      (by rw [hssq]; norm_num)
      (by
        intro c hc
        simp only [witnessStore, List.mem_cons, List.mem_singleton,
          List.not_mem_nil, or_false] at hc
        rcases hc with rfl | rfl | rfl
        · show sumsq (1 :: List.replicate 1535 (0 : ℚ)) ≠ 0
          rw [hss1]
          norm_num
        · show sumsq (1 :: 1 :: List.replicate 1534 (0 : ℚ)) ≠ 0
          rw [hss2]
          norm_num
        · show sumsq ((-1) :: List.replicate 1535 (0 : ℚ)) ≠ 0
          rw [hss3]
          norm_num)
  refine ⟨res, hok, hlen, ?_⟩
  have hres : res = ((((joinedRows witnessStore).filter
      (fun r => simGeThr r.embedding witnessQuery (1 / 2))).insertionSort
        (rankRel witnessQuery)).take 5) := by
    have : searchSimilarChunks witnessStore witnessQuery 5 (1 / 2) =
        .ok ((((joinedRows witnessStore).filter
          (fun r => simGeThr r.embedding witnessQuery (1 / 2))).insertionSort
            (rankRel witnessQuery)).take 5) := by
      unfold searchSimilarChunks
      rw [if_neg (by simp [witnessQuery])]
    exact Except.ok.inj (hok.symm.trans this)
  have hjoin : joinedRows witnessStore = [wRow1, wRow2, wRow3] := rfl
  have hfil : List.filter (fun r => simGeThr r.embedding witnessQuery (1 / 2))
      [wRow1, wRow2, wRow3] = [wRow1, wRow2] := by
    rw [List.filter_cons, if_pos ?p1, List.filter_cons, if_pos ?p2,
      List.filter_cons, if_neg ?p3, List.filter_nil]
    case p1 => exact hs1
    case p2 => exact hs2
    case p3 =>
      intro hc
      exact absurd (hs3.symm.trans hc) (by decide)
  have hsort : List.insertionSort (rankRel witnessQuery) [wRow1, wRow2] =
      [wRow1, wRow2] := by
    show List.orderedInsert (rankRel witnessQuery) wRow1 [wRow2] = [wRow1, wRow2]
    simp only [List.orderedInsert]
    rw [if_pos ?h12]
    case h12 => exact hr12
  rw [hres, hjoin, hfil, hsort]
  rfl

/-! ## Claim C7 -/

/-- C7: `generateEmbeddings` raises the empty-input error — independently of
the provider, hence before calling it — whenever some text is empty after
trimming; otherwise it passes the provider's vectors through unchanged, so
that under the provider contract of spec §4.2 (one 1536-length vector per
text, order-preserving) it returns exactly one embedding per input text in
the same order; and `generateEmbedding t` is the sole element of
`generateEmbeddings [t]`. -/
theorem generateEmbeddings_contract
    (provider : List (List Char) → Except (List Char) (List (List ℚ)))
    (texts : List (List Char)) :
    ((∃ t ∈ texts, trimJS t = []) →
      generateEmbeddings provider texts = .error .emptyInput) ∧
    ((∀ t ∈ texts, trimJS t ≠ []) → ∀ es, provider texts = .ok es →
      es.length = texts.length → (∀ e ∈ es, e.length = 1536) →
      texts ≠ [] →
      generateEmbeddings provider texts = .ok es ∧
        es.length = texts.length ∧ ∀ e ∈ es, e.length = 1536) ∧
    (∀ t e, trimJS t ≠ [] → provider [t] = .ok [e] →
      generateEmbedding provider t = .ok e) := by
  refine ⟨?_, ?_, ?_⟩
  · rintro ⟨t0, ht0, htrim⟩
    unfold generateEmbeddings
    have hne : texts.length ≠ 0 := by
      intro h
      rw [List.length_eq_zero] at h
      subst h
      exact absurd ht0 (List.not_mem_nil t0)
    rw [if_neg hne]
    have hfil : (texts.filter (fun t => !(trimJS t).isEmpty)).length ≠ texts.length := by
      intro heq
      have := List.filter_length_eq_length.1 heq t0 ht0
      rw [htrim] at this
      simp at this
    rw [if_pos hfil]
  · intro hall es hok hlen h1536 hne
    have hfil : (texts.filter (fun t => !(trimJS t).isEmpty)).length = texts.length :=
      List.filter_length_eq_length.2 (fun t ht => by
        have := hall t ht
        simpa using this)
    unfold generateEmbeddings
    rw [if_neg (by simpa using fun h => hne (List.length_eq_zero.1 h)),
      if_neg (by rw [hfil]; simp), hok]
    exact ⟨rfl, hlen, h1536⟩
  · intro t e htrim hok
    unfold generateEmbedding
    have h2 : generateEmbeddings provider [t] = .ok [e] := by
      unfold generateEmbeddings
      rw [if_neg (by simp), if_neg (by simp [htrim]), hok]
    rw [h2]
    rfl


/-- Witness for C7 at a blank text and at a singleton text. -/
theorem generateEmbeddings_contract_witness :
    generateEmbeddings witnessProvider [[' ']] = .error .emptyInput ∧
    generateEmbedding witnessProvider "hi".toList = .ok (List.replicate 1536 0) := by
  constructor
  · exact (generateEmbeddings_contract witnessProvider [[' ']]).1
      ⟨[' '], by simp, by decide⟩
  · exact (generateEmbeddings_contract witnessProvider ["hi".toList]).2.2
      "hi".toList (List.replicate 1536 0) (by decide) rfl

/-! ## Claim C2 -/

/-- C2: in update-existing mode, a row whose `(documentTitle, sourceUrl,
content)` resolves to an already-stored chunk overwrites that chunk in
place — the store keeps the same chunk ids, the chunk with the matched id
carries the new section title and embedding, every other chunk is untouched
— and the row is counted as updated, not skipped and not created.  (The
update branch is modelled from the spec; see `processChunk`.) -/
theorem importChunksFromTSV_update_overwrites (st : Store) (r : TSVRow)
    (d : Document) (c : Chunk)
    (hd : findDoc st.documents r.documentTitle r.sourceUrl = some d)
    (hc : st.chunks.find? (chunkMatches d.id r.chunkContent) = some c) :
    ∃ st' sum, importChunksRows true st [r] = (st', sum) ∧
      sum.documentsCreated = 0 ∧ sum.chunksCreated = 0 ∧ sum.chunksSkipped = 0 ∧
      sum.chunksUpdated = 1 ∧ sum.totalRows = 1 ∧
      st'.documents = st.documents ∧ st'.nextId = st.nextId ∧
      st'.chunks.map Chunk.id = st.chunks.map Chunk.id ∧
      st'.chunks.length = st.chunks.length ∧
      (∃ c' ∈ st'.chunks, c'.id = c.id ∧ c'.documentId = c.documentId ∧
        c'.content = c.content ∧ c'.sectionTitle = strOrNull r.sectionTitle ∧
        c'.embedding = r.embedding.map jsonToQ) ∧
      (∀ c0 ∈ st.chunks, c0.id ≠ c.id → c0 ∈ st'.chunks) := by
  have h1 : groupRows [r] = [(groupKey r, [r])] := rfl
  unfold importChunksRows
  rw [h1]
  simp only [List.foldl_cons, List.foldl_nil]
  unfold processGroup
  dsimp only
  rw [hd]
  unfold processChunks
  simp only [List.foldl_cons, List.foldl_nil]
  unfold processChunk
  dsimp only
  rw [hc]
  simp only [if_true, List.length_cons, List.length_nil]
  refine ⟨_, _, rfl, rfl, rfl, rfl, rfl, rfl, rfl, rfl, ?_, List.length_map _ _, ?_, ?_⟩
  · rw [List.map_map]
    exact List.map_congr_left (fun c0 _ => by
      by_cases h : c0.id = c.id <;> simp [h])
  · refine ⟨{ c with sectionTitle := strOrNull r.sectionTitle
                     embedding := r.embedding.map jsonToQ }, ?_, rfl, rfl, rfl, rfl, rfl⟩
    have hmem := List.mem_of_find?_eq_some hc
    exact List.mem_map.2 ⟨c, hmem, by simp⟩
  · intro c0 hc0 hne
    exact List.mem_map.2 ⟨c0, hc0, by simp [hne]⟩

/-- Witness for C2: a one-document, one-chunk store and a modified row. -/
theorem importChunksFromTSV_update_overwrites_witness :
    ∃ st' sum,
      importChunksRows true
        ⟨[⟨0, "T".toList, none⟩], [⟨1, 0, some "old".toList, "C".toList, [5]⟩], 2⟩
        [⟨"T".toList, [], "new".toList, "C".toList, [.jnum 9]⟩] = (st', sum) ∧
      sum.documentsCreated = 0 ∧ sum.chunksCreated = 0 ∧ sum.chunksSkipped = 0 ∧
      sum.chunksUpdated = 1 ∧ sum.totalRows = 1 ∧
      st'.documents = [⟨0, "T".toList, none⟩] ∧ st'.nextId = 2 ∧
      st'.chunks.map Chunk.id = [1] ∧ st'.chunks.length = 1 ∧
      (∃ c' ∈ st'.chunks, c'.id = 1 ∧ c'.documentId = 0 ∧
        c'.content = "C".toList ∧ c'.sectionTitle = strOrNull "new".toList ∧
        c'.embedding = [Json.jnum 9].map jsonToQ) ∧
      (∀ c0 ∈ [(⟨1, 0, some "old".toList, "C".toList, [5]⟩ : Chunk)],
        c0.id ≠ 1 → c0 ∈ st'.chunks) := by
  obtain ⟨st', sum, heq, h⟩ :=
    importChunksFromTSV_update_overwrites
      ⟨[⟨0, "T".toList, none⟩], [⟨1, 0, some "old".toList, "C".toList, [5]⟩], 2⟩
      ⟨"T".toList, [], "new".toList, "C".toList, [.jnum 9]⟩
      ⟨0, "T".toList, none⟩
      ⟨1, 0, some "old".toList, "C".toList, [5]⟩
      (by with_unfolding_all rfl)
      (by with_unfolding_all rfl)
  exact ⟨st', sum, heq, h⟩

/-! ## Claim C8 -/

theorem mergeInto_cons (expected : Nat) (cur l : List Char) (ls : List (List Char)) :
    mergeInto expected cur (l :: ls) =
      if (splitOnChar '\t' l).length < expected then
        mergeInto expected (cur ++ ' ' :: l) ls
      else cur :: mergeInto expected l ls := rfl

/-- The repair fold, started on a nonempty accumulated row, produces that
accumulator merged with the remaining nonblank trimmed lines. -/
theorem repairStep_go (expected : Nat) (ls : List (List Char)) :
    ∀ (rows : List (List Char)) (cur : List Char), cur ≠ [] →
      (if (ls.foldl (repairStep expected) (rows, cur)).2 ≠ [] then
        (ls.foldl (repairStep expected) (rows, cur)).1 ++
          [(ls.foldl (repairStep expected) (rows, cur)).2]
      else (ls.foldl (repairStep expected) (rows, cur)).1) =
      rows ++ mergeInto expected cur ((ls.map trimJS).filter (fun l => !l.isEmpty)) := by
  induction ls with
  | nil =>
    intro rows cur hcur
    simp only [List.foldl_nil, List.map_nil, List.filter_nil, mergeInto]
    rw [if_pos hcur]
  | cons raw rest ih =>
    intro rows cur hcur
    rw [List.foldl_cons]
    by_cases hline : trimJS raw = []
    · have hstep : repairStep expected (rows, cur) raw = (rows, cur) := by
        unfold repairStep
        dsimp only
        rw [if_pos hline]
      rw [hstep, ih rows cur hcur, List.map_cons, List.filter_cons]
      simp [hline]
    · by_cases hlt : (splitOnChar '\t' (trimJS raw)).length < expected
      · have hstep : repairStep expected (rows, cur) raw =
            (rows, cur ++ ' ' :: trimJS raw) := by
          unfold repairStep
          dsimp only
          rw [if_neg hline, if_pos ⟨hcur, hlt⟩]
        rw [hstep, ih rows (cur ++ ' ' :: trimJS raw) (by simp),
          List.map_cons, List.filter_cons]
        have : (!(trimJS raw).isEmpty) = true := by simpa using hline
        rw [this]
        simp only [if_true]
        rw [mergeInto_cons, if_pos hlt]
      · have hstep : repairStep expected (rows, cur) raw =
            (rows ++ [cur], trimJS raw) := by
          unfold repairStep
          dsimp only
          rw [if_neg hline, if_neg (fun h => hlt h.2), if_pos hcur]
        rw [hstep, ih (rows ++ [cur]) (trimJS raw) hline,
          List.map_cons, List.filter_cons]
        have : (!(trimJS raw).isEmpty) = true := by simpa using hline
        rw [this]
        simp only [if_true]
        rw [mergeInto_cons, if_neg hlt, List.append_assoc]
        rfl

/-- `mergeGroups` leaves a list of wide-enough lines unchanged. -/
theorem mergeGroups_of_all_ge (expected : Nat) :
    ∀ ls : List (List Char),
      (∀ l ∈ ls, expected ≤ (splitOnChar '\t' l).length) →
      mergeGroups expected ls = ls := by
  have hInto : ∀ (ls : List (List Char)) (cur : List Char),
      (∀ l ∈ ls, expected ≤ (splitOnChar '\t' l).length) →
      mergeInto expected cur ls = cur :: ls := by
    intro ls
    induction ls with
    | nil => intro cur _; rfl
    | cons l rest ih =>
      intro cur hall
      rw [mergeInto_cons, if_neg (not_lt.2 (hall l (List.mem_cons_self l rest)))]
      rw [ih l (fun x hx => hall x (List.mem_cons_of_mem l hx))]
  intro ls hall
  cases ls with
  | nil => rfl
  | cons l rest =>
    show mergeInto expected l rest = l :: rest
    exact hInto rest l (fun x hx => hall x (List.mem_cons_of_mem l hx))

/-- C8 (amended): the repair pass merges the nonblank trimmed lines after
the header into groups — a new group starts at the first line and at every
line with at least the header's field count, and every line with fewer
fields is appended space-joined to the group in progress, regardless of the
accumulated row's own field count; in particular when every line has at
least the header's field count the lines pass through unchanged as
standalone rows. -/
theorem repairRows_merges_short_lines (expected : Nat) (ls : List (List Char)) :
    repairRows expected ls =
      mergeGroups expected ((ls.map trimJS).filter (fun l => !l.isEmpty)) ∧
    ((∀ l ∈ (ls.map trimJS).filter (fun l => !l.isEmpty),
        expected ≤ (splitOnChar '\t' l).length) →
      repairRows expected ls = (ls.map trimJS).filter (fun l => !l.isEmpty)) := by
  have hmain : repairRows expected ls =
      mergeGroups expected ((ls.map trimJS).filter (fun l => !l.isEmpty)) := by
    have hrepair : repairRows expected ls =
        (if (ls.foldl (repairStep expected) ([], [])).2 ≠ [] then
          (ls.foldl (repairStep expected) ([], [])).1 ++
            [(ls.foldl (repairStep expected) ([], [])).2]
        else (ls.foldl (repairStep expected) ([], [])).1) := rfl
    clear hrepair
    induction ls with
    | nil => rfl
    | cons raw rest ih =>
      by_cases hline : trimJS raw = []
      · have hstep : repairStep expected ([], []) raw = ([], []) := by
          unfold repairStep
          dsimp only
          rw [if_pos hline]
        show (if ((raw :: rest).foldl (repairStep expected) ([], [])).2 ≠ [] then _ else _) = _
        rw [List.foldl_cons, hstep, List.map_cons, List.filter_cons,
          show (!(trimJS raw).isEmpty) = false by simp [hline]]
        simp only [Bool.false_eq_true, if_false]
        exact ih
      · have hstep : repairStep expected ([], []) raw = ([], trimJS raw) := by
          unfold repairStep
          dsimp only
          rw [if_neg hline, if_neg (fun h => h.1 rfl), if_neg (fun h => h rfl)]
        show (if ((raw :: rest).foldl (repairStep expected) ([], [])).2 ≠ [] then _ else _) = _
        rw [List.foldl_cons, hstep,
          repairStep_go expected rest [] (trimJS raw) hline,
          List.map_cons, List.filter_cons]
        rw [show (!(trimJS raw).isEmpty) = true by simpa using hline]
        simp only [if_true, List.nil_append]
        rfl
  refine ⟨hmain, fun hall => ?_⟩
  rw [hmain, mergeGroups_of_all_ge expected _ hall]

/-- Witness for C8: two wide rows pass through unchanged. -/
theorem repairRows_merges_short_lines_witness :
    repairRows 2 ["a\tb".toList, "c\td".toList] =
      ["a\tb".toList, "c\td".toList] := by
  have h := (repairRows_merges_short_lines 2 ["a\tb".toList, "c\td".toList]).2
    (by decide)
  rw [h]
  decide

/-- Counterexample to C8 as stated: with a 5-field header, a first data row
that already has exactly 5 fields still absorbs a following 2-field line,
yielding a 6-field row — appending does not stop when the accumulated row's
field count matches the header's. -/
theorem repairRows_overshoots_counterexample :
    repairRows 5 ["a\tb\tc\td\te".toList, "x\ty".toList] =
      ["a\tb\tc\td\te x\ty".toList] ∧
    (splitOnChar '\t' "a\tb\tc\td\te".toList).length = 5 ∧
    (splitOnChar '\t' "x\ty".toList).length = 2 ∧
    (splitOnChar '\t' "a\tb\tc\td\te x\ty".toList).length = 6 := by
  refine ⟨by decide, by decide, by decide, by decide⟩

/-! ## Splitting and joining -/

theorem splitOnChar_no_sep {sep : Char} : ∀ {f : List Char}, sep ∉ f →
    splitOnChar sep f = [f] := by
  intro f
  induction f with
  | nil => intro _; rfl
  | cons c cs ih =>
    intro h
    have hc : c ≠ sep := fun hh => h (hh ▸ List.mem_cons_self c cs)
    unfold splitOnChar
    rw [if_neg hc, ih (fun hm => h (List.mem_cons_of_mem c hm))]

theorem splitOnChar_append_sep {sep : Char} : ∀ {f t : List Char}, sep ∉ f →
    splitOnChar sep (f ++ sep :: t) = f :: splitOnChar sep t := by
  intro f
  induction f with
  | nil =>
    intro t _
    show splitOnChar sep (sep :: t) = [] :: splitOnChar sep t
    simp [splitOnChar]
  | cons c cs ih =>
    intro t h
    have hc : c ≠ sep := fun hh => h (hh ▸ List.mem_cons_self c cs)
    show splitOnChar sep (c :: (cs ++ sep :: t)) = (c :: cs) :: splitOnChar sep t
    simp only [splitOnChar]
    rw [if_neg hc, ih (fun hm => h (List.mem_cons_of_mem c hm))]

theorem splitOnChar_joinSep {sep : Char} : ∀ {fields : List (List Char)},
    fields ≠ [] → (∀ f ∈ fields, sep ∉ f) →
    splitOnChar sep (joinSep sep fields) = fields := by
  intro fields
  induction fields with
  | nil => intro h _; exact absurd rfl h
  | cons f rest ih =>
    intro _ hall
    cases rest with
    | nil => exact splitOnChar_no_sep (hall f (List.mem_cons_self f []))
    | cons g rest2 =>
      show splitOnChar sep (f ++ sep :: joinSep sep (g :: rest2)) = _
      rw [splitOnChar_append_sep (hall f (List.mem_cons_self f _)),
        ih (by simp) (fun x hx => hall x (List.mem_cons_of_mem f hx))]

/-- Every piece produced by `splitOnChar` is free of the separator. -/
theorem splitOnChar_mem_no_sep {sep : Char} : ∀ {s : List Char} {f : List Char},
    f ∈ splitOnChar sep s → sep ∉ f := by
  intro s
  induction s with
  | nil =>
    intro f hf
    simp only [splitOnChar, List.mem_singleton] at hf
    subst hf
    exact List.not_mem_nil sep
  | cons c cs ih =>
    intro f hf
    simp only [splitOnChar] at hf
    by_cases hc : c = sep
    · rw [if_pos hc] at hf
      rcases List.mem_cons.1 hf with rfl | hm
      · exact List.not_mem_nil sep
      · exact ih hm
    · rw [if_neg hc] at hf
      match hsp : splitOnChar sep cs with
      | [] =>
        rw [hsp] at hf
        rcases List.mem_cons.1 hf with rfl | hm
        · intro hmem
          rcases List.mem_cons.1 hmem with h | h
          · exact hc h.symm
          · exact absurd h (List.not_mem_nil sep)
        · exact absurd hm (List.not_mem_nil f)
      | g :: rest =>
        rw [hsp] at hf
        rcases List.mem_cons.1 hf with rfl | hm
        · intro hmem
          rcases List.mem_cons.1 hmem with h | h
          · exact hc h.symm
          · exact ih (hsp ▸ List.mem_cons_self g rest) h
        · exact ih (hsp ▸ List.mem_cons_of_mem g hm)

/-! ## Symbolic evaluation of `JSON.parse` on the witness embeddings -/

theorem skipWs_cons {c : Char} (h : jsonWs c = false) (r : List Char) :
    skipWs (c :: r) = c :: r := by
  simp [skipWs, List.dropWhile_cons, h]

theorem parseVal_null (fuel : Nat) (r : List Char) :
    parseVal (fuel + 1) ('n' :: 'u' :: 'l' :: 'l' :: r) = some (.jnull, r) := by
  rw [parseVal, skipWs_cons (by decide)]
  rfl

theorem parseVal_zero_comma (fuel : Nat) (r : List Char) :
    parseVal (fuel + 1) ('0' :: ',' :: r) = some (.jnum 0, ',' :: r) := by
  rw [parseVal, skipWs_cons (by decide)]
  with_unfolding_all rfl

theorem parseVal_zero_rb (fuel : Nat) (r : List Char) :
    parseVal (fuel + 1) ('0' :: ']' :: r) = some (.jnum 0, ']' :: r) := by
  rw [parseVal, skipWs_cons (by decide)]
  with_unfolding_all rfl

theorem parseArrItems_succ (fuel : Nat) (s : List Char) :
    parseArrItems (fuel + 1) s =
      match skipWs s with
      | ']' :: rest => some ([], rest)
      | other =>
        match parseVal fuel other with
        | some (v, rest) =>
          match skipWs rest with
          | ',' :: rest2 =>
            match parseArrItems fuel rest2 with
            | some ([], _) => none
            | some (vs, rest3) => some (v :: vs, rest3)
            | none => none
          | ']' :: rest2 => some ([v], rest2)
          | _ => none
        | none => none := by
  rw [parseArrItems]


theorem intercalate_one (x : List Char) : List.intercalate [','] [x] = x := by
  simp [List.intercalate]

theorem intercalate_cons_cons (x y : List Char) (l : List (List Char)) :
    List.intercalate [','] (x :: y :: l) =
      x ++ ',' :: List.intercalate [','] (y :: l) := by
  simp [List.intercalate, List.intersperse]

theorem intercalate_rep_succ (n : Nat) (x : List Char) :
    List.intercalate [','] (List.replicate (n + 2) x) =
      x ++ ',' :: List.intercalate [','] (List.replicate (n + 1) x) := by
  rw [List.replicate_succ x (n + 1), List.replicate_succ x n, intercalate_cons_cons,
    ← List.replicate_succ x n]

theorem parseArrItems_rep_zero : ∀ (n fuel : Nat) (rest : List Char), n + 2 ≤ fuel →
    parseArrItems fuel
      (List.intercalate [','] (List.replicate (n + 1) ['0']) ++ ']' :: rest) =
      some (List.replicate (n + 1) (Json.jnum 0), rest) := by
  intro n
  induction n with
  | zero =>
    intro fuel rest hf
    obtain ⟨f, rfl⟩ : ∃ f, fuel = f + 2 := ⟨fuel - 2, by omega⟩
    rw [show (0 + 1 : Nat) = 1 from rfl,
      show List.replicate 1 ['0'] = [['0']] from rfl, intercalate_one]
    show parseArrItems (f + 1 + 1) ('0' :: ']' :: rest) = some ([Json.jnum 0], rest)
    rw [parseArrItems_succ, skipWs_cons (by decide)]
    split
    · rename_i heq
      exact absurd heq (by simp)
    · rw [parseVal_zero_rb]
      rfl
  | succ n ih =>
    intro fuel rest hf
    obtain ⟨f, rfl⟩ : ∃ f, fuel = f + 1 := ⟨fuel - 1, by omega⟩
    obtain ⟨g, rfl⟩ : ∃ g, f = g + 1 := ⟨f - 1, by omega⟩
    rw [show (n + 1 + 1 : Nat) = n + 2 from rfl, intercalate_rep_succ]
    rw [show (['0'] ++ ',' :: List.intercalate [','] (List.replicate (n + 1) ['0'])) ++
        ']' :: rest =
      '0' :: ',' :: (List.intercalate [','] (List.replicate (n + 1) ['0']) ++
        ']' :: rest) from rfl]
    rw [parseArrItems_succ, skipWs_cons (by decide)]
    split
    · rename_i heq
      exact absurd heq (by simp)
    · rw [parseVal_zero_comma]
      dsimp only
      rw [skipWs_cons (by decide)]
      split
      · rename_i rest2 heq
        injection heq with h1 h2
        subst h2
        rw [ih (g + 1) rest (by omega), List.replicate_succ (Json.jnum 0) n,
          List.replicate_succ (Json.jnum 0) (n + 1), List.replicate_succ (Json.jnum 0) n]
      · rename_i heq
        exact absurd heq (by simp)
      · rename_i hne1 hne2
        exact absurd rfl (hne1 _)


theorem parseArrItems_rep_null : ∀ (n fuel : Nat) (rest : List Char), n + 2 ≤ fuel →
    parseArrItems fuel
      (List.intercalate [','] (List.replicate (n + 1) "null".toList) ++ ']' :: rest) =
      some (List.replicate (n + 1) Json.jnull, rest) := by
  intro n
  induction n with
  | zero =>
    intro fuel rest hf
    obtain ⟨f, rfl⟩ : ∃ f, fuel = f + 2 := ⟨fuel - 2, by omega⟩
    rw [show (0 + 1 : Nat) = 1 from rfl,
      show List.replicate 1 "null".toList = ["null".toList] from rfl, intercalate_one]
    show parseArrItems (f + 1 + 1) ('n' :: 'u' :: 'l' :: 'l' :: ']' :: rest) =
      some ([Json.jnull], rest)
    rw [parseArrItems_succ, skipWs_cons (by decide)]
    split
    · rename_i heq
      exact absurd heq (by simp)
    · rw [parseVal_null]
      rfl
  | succ n ih =>
    intro fuel rest hf
    obtain ⟨f, rfl⟩ : ∃ f, fuel = f + 1 := ⟨fuel - 1, by omega⟩
    obtain ⟨g, rfl⟩ : ∃ g, f = g + 1 := ⟨f - 1, by omega⟩
    rw [show (n + 1 + 1 : Nat) = n + 2 from rfl, intercalate_rep_succ]
    rw [show ("null".toList ++ ',' ::
        List.intercalate [','] (List.replicate (n + 1) "null".toList)) ++ ']' :: rest =
      'n' :: 'u' :: 'l' :: 'l' :: ',' ::
        (List.intercalate [','] (List.replicate (n + 1) "null".toList) ++
          ']' :: rest) from rfl]
    rw [parseArrItems_succ, skipWs_cons (by decide)]
    split
    · rename_i heq
      exact absurd heq (by simp)
    · rw [parseVal_null]
      dsimp only
      rw [skipWs_cons (by decide)]
      split
      · rename_i rest2 heq
        injection heq with h1 h2
        subst h2
        rw [ih (g + 1) rest (by omega), List.replicate_succ Json.jnull n,
          List.replicate_succ Json.jnull (n + 1), List.replicate_succ Json.jnull n]
      · rename_i heq
        exact absurd heq (by simp)
      · rename_i hne1 hne2
        exact absurd rfl (hne1 _)

theorem intercalate_rep_len (x : List Char) : ∀ n : Nat,
    (List.intercalate [','] (List.replicate (n + 1) x)).length =
      (n + 1) * x.length + n := by
  intro n
  induction n with
  | zero => rw [show List.replicate 1 x = [x] from rfl, intercalate_one]; ring_nf
  | succ n ih =>
    rw [show (n + 1 + 1 : Nat) = n + 2 from rfl, intercalate_rep_succ]
    rw [List.length_append, List.length_cons, ih]
    ring

theorem parseVal_emb :
    parseVal 3074 ('[' :: (List.intercalate [','] (List.replicate 1536 ['0']) ++ [']'])) =
      some (.jarr (List.replicate 1536 (Json.jnum 0)), []) := by
  rw [show (3074 : Nat) = 3073 + 1 from rfl, parseVal, skipWs_cons (by decide)]
  split
  · rename_i heq
    exact absurd heq (by simp)
  · rename_i heq
    exact absurd heq (by simp)
  · rename_i heq
    exact absurd heq (by simp)
  · rename_i heq
    exact absurd heq (by simp)
  · rename_i rest heq
    injection heq with h1 h2
    subst h2
    rw [show (1536 : Nat) = 1535 + 1 from rfl,
      show (List.intercalate [','] (List.replicate (1535 + 1) ['0']) ++ [']'] : List Char) =
        List.intercalate [','] (List.replicate (1535 + 1) ['0']) ++ ']' :: [] from rfl,
      parseArrItems_rep_zero 1535 3073 [] (by omega)]
  · rename_i heq
    exact absurd heq (by simp)
  · rename_i hne1 hne2 hne3 hne4 hne5 hne6
    exact absurd rfl (hne5 _)

theorem jsonParse_emb :
    jsonParse ('[' :: List.intercalate [','] (List.replicate 1536 ['0']) ++ [']']) =
      some (.jarr (List.replicate 1536 (Json.jnum 0))) := by
  have hlen : ('[' :: List.intercalate [','] (List.replicate 1536 ['0']) ++ [']']).length
      = 3073 := by
    rw [List.cons_append, List.length_cons, List.length_append,
      show (1536 : Nat) = 1535 + 1 from rfl, intercalate_rep_len]
    norm_num
  unfold jsonParse
  rw [hlen, show ('[' :: List.intercalate [','] (List.replicate 1536 ['0']) ++ [']'] :
      List Char) =
    '[' :: (List.intercalate [','] (List.replicate 1536 ['0']) ++ [']']) from rfl,
    show (3073 + 1 : Nat) = 3074 from rfl, parseVal_emb]
  rfl

theorem parseVal_nulls :
    parseVal 7682
      ('[' :: (List.intercalate [','] (List.replicate 1536 "null".toList) ++ [']'])) =
      some (.jarr (List.replicate 1536 Json.jnull), []) := by
  rw [show (7682 : Nat) = 7681 + 1 from rfl, parseVal, skipWs_cons (by decide)]
  split
  · rename_i heq
    exact absurd heq (by simp)
  · rename_i heq
    exact absurd heq (by simp)
  · rename_i heq
    exact absurd heq (by simp)
  · rename_i heq
    exact absurd heq (by simp)
  · rename_i rest heq
    injection heq with h1 h2
    subst h2
    rw [show (1536 : Nat) = 1535 + 1 from rfl,
      show (List.intercalate [','] (List.replicate (1535 + 1) "null".toList) ++ [']'] :
          List Char) =
        List.intercalate [','] (List.replicate (1535 + 1) "null".toList) ++ ']' :: []
        from rfl,
      parseArrItems_rep_null 1535 7681 [] (by omega)]
  · rename_i heq
    exact absurd heq (by simp)
  · rename_i hne1 hne2 hne3 hne4 hne5 hne6
    exact absurd rfl (hne5 _)

theorem jsonParse_nulls :
    jsonParse ('[' :: List.intercalate [','] (List.replicate 1536 "null".toList) ++ [']']) =
      some (.jarr (List.replicate 1536 Json.jnull)) := by
  have hlen : ('[' :: List.intercalate [','] (List.replicate 1536 "null".toList) ++
      [']']).length = 7681 := by
    rw [List.cons_append, List.length_cons, List.length_append,
      show (1536 : Nat) = 1535 + 1 from rfl, intercalate_rep_len]
    norm_num
  unfold jsonParse
  rw [hlen, show ('[' :: List.intercalate [','] (List.replicate 1536 "null".toList) ++
      [']'] : List Char) =
    '[' :: (List.intercalate [','] (List.replicate 1536 "null".toList) ++ [']']) from rfl,
    show (7681 + 1 : Nat) = 7682 from rfl, parseVal_nulls]
  rfl

/-- Membership in a comma-intercalated repetition. -/
theorem mem_intercalate_rep {c : Char} {x : List Char} : ∀ {n : Nat},
    c ∈ List.intercalate [','] (List.replicate n x) → c = ',' ∨ c ∈ x := by
  intro n
  induction n with
  | zero =>
    intro h
    simp [List.intercalate] at h
  | succ n ih =>
    intro h
    cases n with
    | zero =>
      rw [show List.replicate 1 x = [x] from rfl, intercalate_one] at h
      exact Or.inr h
    | succ m =>
      rw [show (m + 1 + 1 : Nat) = m + 2 from rfl, intercalate_rep_succ] at h
      rcases List.mem_append.1 h with hx | hh
      · exact Or.inr hx
      · rcases List.mem_cons.1 hh with rfl | hm
        · exact Or.inl rfl
        · exact ih hm

theorem tab_not_mem_emb : '\t' ∉ emb1536chars := by
  intro h
  unfold emb1536chars at h
  rw [List.cons_append] at h
  rcases List.mem_cons.1 h with h0 | h1
  · cases h0
  · rcases List.mem_append.1 h1 with h2 | h3
    · rcases mem_intercalate_rep h2 with h4 | h5
      · cases h4
      · revert h5
        decide
    · revert h3
      decide

theorem nl_not_mem_emb : '\n' ∉ emb1536chars := by
  intro h
  unfold emb1536chars at h
  rw [List.cons_append] at h
  rcases List.mem_cons.1 h with h0 | h1
  · cases h0
  · rcases List.mem_append.1 h1 with h2 | h3
    · rcases mem_intercalate_rep h2 with h4 | h5
      · cases h4
      · revert h5
        decide
    · revert h3
      decide

theorem tab_not_mem_nullEmb : '\t' ∉ nullEmb1536 := by
  intro h
  unfold nullEmb1536 at h
  rw [List.cons_append] at h
  rcases List.mem_cons.1 h with h0 | h1
  · cases h0
  · rcases List.mem_append.1 h1 with h2 | h3
    · rcases mem_intercalate_rep h2 with h4 | h5
      · cases h4
      · revert h5
        decide
    · revert h3
      decide

theorem nl_not_mem_nullEmb : '\n' ∉ nullEmb1536 := by
  intro h
  unfold nullEmb1536 at h
  rw [List.cons_append] at h
  rcases List.mem_cons.1 h with h0 | h1
  · cases h0
  · rcases List.mem_append.1 h1 with h2 | h3
    · rcases mem_intercalate_rep h2 with h4 | h5
      · cases h4
      · revert h5
        decide
    · revert h3
      decide

theorem jsonParse_emb1536 :
    jsonParse emb1536chars = some (.jarr (List.replicate 1536 (Json.jnum 0))) :=
  jsonParse_emb

theorem jsonParse_nullEmb1536 :
    jsonParse nullEmb1536 = some (.jarr (List.replicate 1536 Json.jnull)) :=
  jsonParse_nulls

/-! ## Claims C6 and C10 -/

/-- The three outcomes of `parseLine`, as functions of the line's
tab-separated fields. -/
theorem parseLine_cases (line : List Char) :
    ((optFalsy ((splitOnChar '\t' line).get? 0) ||
      optFalsy ((splitOnChar '\t' line).get? 3) ||
      optFalsy ((splitOnChar '\t' line).get? 4)) = true →
      parseLine line = .error (.malformedRow line)) ∧
    ((optFalsy ((splitOnChar '\t' line).get? 0) ||
      optFalsy ((splitOnChar '\t' line).get? 3) ||
      optFalsy ((splitOnChar '\t' line).get? 4)) = false →
      (∀ xs, jsonParse (((splitOnChar '\t' line).get? 4).getD []) = some (.jarr xs) →
        xs.length ≠ 1536) →
      parseLine line = .error (.invalidEmbedding (((splitOnChar '\t' line).get? 0).getD []))) ∧
    (∀ xs, (optFalsy ((splitOnChar '\t' line).get? 0) ||
      optFalsy ((splitOnChar '\t' line).get? 3) ||
      optFalsy ((splitOnChar '\t' line).get? 4)) = false →
      jsonParse (((splitOnChar '\t' line).get? 4).getD []) = some (.jarr xs) →
      xs.length = 1536 →
      parseLine line = .ok ⟨trimJS (((splitOnChar '\t' line).get? 0).getD []),
        optNorm ((splitOnChar '\t' line).get? 1),
        optNorm ((splitOnChar '\t' line).get? 2),
        trimJS (((splitOnChar '\t' line).get? 3).getD []), xs⟩) := by
  refine ⟨fun h => ?_, fun h hbad => ?_, fun xs h hj hlen => ?_⟩
  · unfold parseLine
    dsimp only
    rw [if_pos h]
  · unfold parseLine
    dsimp only
    rw [if_neg (fun hc => by rw [h] at hc; cases hc)]
    rcases hj : jsonParse (((splitOnChar '\t' line).get? 4).getD []) with _ | v
    · rfl
    · rcases v with _ | b | q | s | xs | kvs <;> try rfl
      dsimp only
      rw [if_neg (hbad xs hj)]
  · unfold parseLine
    dsimp only
    rw [if_neg (fun hc => by rw [h] at hc; cases hc), hj]
    dsimp only
    rw [if_pos hlen]

/-- `parseLines` succeeds exactly by succeeding linewise, in order. -/
theorem parseLines_ok : ∀ {ls : List (List Char)} {rs : List TSVRow},
    parseLines ls = .ok rs →
    List.Forall₂ (fun l r => parseLine l = .ok r) ls rs := by
  intro ls
  induction ls with
  | nil =>
    intro rs h
    simp only [parseLines] at h
    injection h with h
    subst h
    exact .nil
  | cons l ls ih =>
    intro rs h
    simp only [parseLines] at h
    rcases hpl : parseLine l with e | r <;> rw [hpl] at h
    · cases h
    · rcases hrest : parseLines ls with e | rs' <;> rw [hrest] at h
      · cases h
      · injection h with h
        subst h
        exact .cons hpl (ih hrest)

/-- A failing line makes the whole parse fail (fail-fast). -/
theorem parseLines_error : ∀ {ls : List (List Char)},
    (∃ l ∈ ls, ∃ e, parseLine l = .error e) →
    ∃ e, parseLines ls = .error e := by
  intro ls
  induction ls with
  | nil =>
    rintro ⟨l, hl, _⟩
    exact absurd hl (List.not_mem_nil l)
  | cons l0 ls ih =>
    rintro ⟨l, hl, e, he⟩
    rcases hpl : parseLine l0 with e0 | r0
    · exact ⟨e0, by simp only [parseLines]; rw [hpl]⟩
    · rcases List.mem_cons.1 hl with rfl | hm
      · exact absurd (he.symm.trans hpl) (by simp)
      · obtain ⟨e2, he2⟩ := ih ⟨l, hm, e, he⟩
        exact ⟨e2, by simp only [parseLines]; rw [hpl, he2]⟩

/-- C6 (amended): on every data line, `parseTSV` fails with a malformed-row
error when the title, content or embedding-text field is missing or empty,
and fails with an invalid-embedding error naming the raw document title when
the embedding text does not `JSON.parse` to an array of exactly 1536
elements (the elements need not be numbers — the source checks only
`Array.isArray` and the length); a failing line aborts the whole parse, and
on success there is one validated row per data line, its string fields
trimmed, in file order. -/
theorem parseTSV_validation (content : List Char) :
    (∀ line ∈ dataLines content,
      ((optFalsy ((splitOnChar '\t' line).get? 0) ||
        optFalsy ((splitOnChar '\t' line).get? 3) ||
        optFalsy ((splitOnChar '\t' line).get? 4)) = true →
        parseLine line = .error (.malformedRow line)) ∧
      ((optFalsy ((splitOnChar '\t' line).get? 0) ||
        optFalsy ((splitOnChar '\t' line).get? 3) ||
        optFalsy ((splitOnChar '\t' line).get? 4)) = false →
        (∀ xs, jsonParse (((splitOnChar '\t' line).get? 4).getD []) = some (.jarr xs) →
          xs.length ≠ 1536) →
        parseLine line = .error (.invalidEmbedding (((splitOnChar '\t' line).get? 0).getD []))) ∧
      (∀ xs, (optFalsy ((splitOnChar '\t' line).get? 0) ||
        optFalsy ((splitOnChar '\t' line).get? 3) ||
        optFalsy ((splitOnChar '\t' line).get? 4)) = false →
        jsonParse (((splitOnChar '\t' line).get? 4).getD []) = some (.jarr xs) →
        xs.length = 1536 →
        parseLine line = .ok ⟨trimJS (((splitOnChar '\t' line).get? 0).getD []),
          optNorm ((splitOnChar '\t' line).get? 1),
          optNorm ((splitOnChar '\t' line).get? 2),
          trimJS (((splitOnChar '\t' line).get? 3).getD []), xs⟩)) ∧
    (∀ rs, parseTSV content = .ok rs →
      List.Forall₂ (fun l r => parseLine l = .ok r) (dataLines content) rs ∧
      rs.length = (dataLines content).length) ∧
    ((∃ line ∈ dataLines content, ∃ e, parseLine line = .error e) →
      ∃ e, parseTSV content = .error e) := by
  refine ⟨fun line _ => parseLine_cases line, fun rs h => ?_, fun h => parseLines_error h⟩
  have hf := parseLines_ok h
  exact ⟨hf, hf.length_eq.symm⟩



/-- A line starting with a non-whitespace character does not trim to
empty (so the `filter(line => line.trim())` keeps it). -/
theorem trimJS_isEmpty_false {s : List Char} {c : Char} {t : List Char}
    (hs : s = c :: t) (h : jsWhite c = false) : (trimJS s).isEmpty = false := by
  subst hs
  have hne : trimJS (c :: t) ≠ [] := by
    unfold trimJS
    rw [List.dropWhile_cons, if_neg (by simp [h])]
    intro hnil
    rw [List.reverse_eq_nil_iff] at hnil
    have hall := List.dropWhile_eq_nil_iff.1 hnil
    have hc : c ∈ (c :: t).reverse := by
      rw [List.mem_reverse]
      exact List.mem_cons_self c t
    have hw := hall c hc
    rw [h] at hw
    cases hw
  cases he : trimJS (c :: t) with
  | nil => exact absurd he hne
  | cons a l => rfl

/-- The five tab-separated fields of the witness data line. -/
theorem splitOnChar_wfDataLine :
    splitOnChar '\t' wfDataLine =
      ["T".toList, [], "S".toList, "C".toList, emb1536chars] := by
  rw [show wfDataLine = "T".toList ++ '\t' :: (([] : List Char) ++ '\t' ::
      ("S".toList ++ '\t' :: ("C".toList ++ '\t' :: emb1536chars))) from rfl,
    splitOnChar_append_sep (by decide), splitOnChar_append_sep (by decide),
    splitOnChar_append_sep (by decide), splitOnChar_append_sep (by decide),
    splitOnChar_no_sep tab_not_mem_emb]

theorem parseLine_wfDataLine : parseLine wfDataLine = .ok wfRow := by
  have hget0 : (splitOnChar '\t' wfDataLine).get? 0 = some "T".toList := by
    rw [splitOnChar_wfDataLine]
    rfl
  have hget1 : (splitOnChar '\t' wfDataLine).get? 1 = some [] := by
    rw [splitOnChar_wfDataLine]
    rfl
  have hget2 : (splitOnChar '\t' wfDataLine).get? 2 = some "S".toList := by
    rw [splitOnChar_wfDataLine]
    rfl
  have hget3 : (splitOnChar '\t' wfDataLine).get? 3 = some "C".toList := by
    rw [splitOnChar_wfDataLine]
    rfl
  have hget4 : (splitOnChar '\t' wfDataLine).get? 4 = some emb1536chars := by
    rw [splitOnChar_wfDataLine]
    rfl
  have hfalsy : (optFalsy ((splitOnChar '\t' wfDataLine).get? 0) ||
      optFalsy ((splitOnChar '\t' wfDataLine).get? 3) ||
      optFalsy ((splitOnChar '\t' wfDataLine).get? 4)) = false := by
    rw [hget0, hget3, hget4]
    decide
  have hjson : jsonParse (((splitOnChar '\t' wfDataLine).get? 4).getD []) =
      some (.jarr (List.replicate 1536 (Json.jnum 0))) := by
    rw [hget4]
    exact jsonParse_emb1536
  have h := (parseLine_cases wfDataLine).2.2 (List.replicate 1536 (Json.jnum 0))
    hfalsy hjson (by simp)
  rw [h, hget0, hget1, hget2, hget3]
  rfl

/-- `parseLines` on a single successfully parsed line. -/
theorem parseLines_singleton (l : List Char) (r : TSVRow)
    (h : parseLine l = .ok r) : parseLines [l] = .ok [r] := by
  simp only [parseLines]
  rw [h]

/-- The witness file parses to its single row. -/
theorem wfFile_parses : parseTSV wfFile = .ok [wfRow] := by
  have hnld : '\n' ∉ wfDataLine := by
    intro h
    rcases List.mem_append.1 h with h1 | h2
    · revert h1
      decide
    · exact nl_not_mem_emb h2
  have hlines : splitOnChar '\n' wfFile = [wfHeaderLine, wfDataLine] := by
    rw [show wfFile = wfHeaderLine ++ '\n' :: wfDataLine from rfl,
      splitOnChar_append_sep (by decide), splitOnChar_no_sep hnld]
  have hfl : fileLines wfFile = [wfHeaderLine, wfDataLine] := by
    unfold fileLines
    rw [hlines, List.filter_cons, if_pos (by decide), List.filter_cons,
      if_pos ?hkeep, List.filter_nil]
    case hkeep =>
      rw [trimJS_isEmpty_false (show wfDataLine =
        'T' :: ("\t\tS\tC\t".toList ++ emb1536chars) from rfl) (by decide)]
      rfl
  have hdl : dataLines wfFile = [wfDataLine] := by
    unfold dataLines
    rw [hfl, List.filter_cons, if_neg (by decide), List.filter_cons,
      if_pos (by decide), List.filter_nil]
  unfold parseTSV
  rw [hdl]
  exact parseLines_singleton _ _ parseLine_wfDataLine

/-- The five tab-separated fields of the all-`null`s data line. -/
theorem splitOnChar_nnLine :
    splitOnChar '\t' nonNumericEmbeddingLine =
      ["T".toList, [], [], "C".toList, nullEmb1536] := by
  rw [show nonNumericEmbeddingLine = "T".toList ++ '\t' :: (([] : List Char) ++ '\t' ::
      (([] : List Char) ++ '\t' :: ("C".toList ++ '\t' :: nullEmb1536))) from rfl,
    splitOnChar_append_sep (by decide), splitOnChar_append_sep (by decide),
    splitOnChar_append_sep (by decide), splitOnChar_append_sep (by decide),
    splitOnChar_no_sep tab_not_mem_nullEmb]

theorem parseLine_nnLine : parseLine nonNumericEmbeddingLine =
    .ok ⟨"T".toList, [], [], "C".toList, List.replicate 1536 Json.jnull⟩ := by
  have hget0 : (splitOnChar '\t' nonNumericEmbeddingLine).get? 0 = some "T".toList := by
    rw [splitOnChar_nnLine]
    rfl
  have hget1 : (splitOnChar '\t' nonNumericEmbeddingLine).get? 1 = some [] := by
    rw [splitOnChar_nnLine]
    rfl
  have hget2 : (splitOnChar '\t' nonNumericEmbeddingLine).get? 2 = some [] := by
    rw [splitOnChar_nnLine]
    rfl
  have hget3 : (splitOnChar '\t' nonNumericEmbeddingLine).get? 3 = some "C".toList := by
    rw [splitOnChar_nnLine]
    rfl
  have hget4 : (splitOnChar '\t' nonNumericEmbeddingLine).get? 4 =
      some nullEmb1536 := by
    rw [splitOnChar_nnLine]
    rfl
  have hfalsy : (optFalsy ((splitOnChar '\t' nonNumericEmbeddingLine).get? 0) ||
      optFalsy ((splitOnChar '\t' nonNumericEmbeddingLine).get? 3) ||
      optFalsy ((splitOnChar '\t' nonNumericEmbeddingLine).get? 4)) = false := by
    rw [hget0, hget3, hget4]
    decide
  have hjson : jsonParse (((splitOnChar '\t' nonNumericEmbeddingLine).get? 4).getD []) =
      some (.jarr (List.replicate 1536 Json.jnull)) := by
    rw [hget4]
    exact jsonParse_nullEmb1536
  have h := (parseLine_cases nonNumericEmbeddingLine).2.2
    (List.replicate 1536 Json.jnull) hfalsy hjson (by simp)
  rw [h, hget0, hget1, hget2, hget3]
  rfl

/-- The all-`null`s line parses as a whole single-line file. -/
theorem nnLine_parses : parseTSV nonNumericEmbeddingLine =
    .ok [⟨"T".toList, [], [], "C".toList, List.replicate 1536 Json.jnull⟩] := by
  have hnl : '\n' ∉ nonNumericEmbeddingLine := by
    intro h
    rcases List.mem_append.1 h with h1 | h2
    · revert h1
      decide
    · exact nl_not_mem_nullEmb h2
  have hlines : splitOnChar '\n' nonNumericEmbeddingLine =
      [nonNumericEmbeddingLine] := splitOnChar_no_sep hnl
  have hdl : dataLines nonNumericEmbeddingLine = [nonNumericEmbeddingLine] := by
    unfold dataLines fileLines
    rw [hlines, List.filter_cons, if_pos ?hkeep, List.filter_nil,
      List.filter_cons, if_pos (by decide), List.filter_nil]
    case hkeep =>
      rw [trimJS_isEmpty_false (show nonNumericEmbeddingLine =
        'T' :: ("\t\t\tC\t".toList ++ nullEmb1536) from rfl) (by decide)]
      rfl
  unfold parseTSV
  rw [hdl]
  exact parseLines_singleton _ _ parseLine_nnLine

/-- Witness for C6: the one well-formed data row parses, and the success
branch of the characterization applies to it. -/
theorem parseTSV_validation_witness :
    ∃ rs, parseTSV wfFile = .ok rs ∧ rs.length = (dataLines wfFile).length ∧
      rs.length = 1 := by
  obtain ⟨_, hlen⟩ := (parseTSV_validation wfFile).2.1 _ wfFile_parses
  exact ⟨_, wfFile_parses, hlen, rfl⟩


/-- Counterexample to C6 as stated: an embedding text that is not a JSON
*numeric* array — 1536 `null`s — is accepted by `parseTSV` rather than
rejected with an invalid-embedding error, because the source validates only
`Array.isArray` and the length. -/
theorem parseTSV_accepts_nonnumeric_embedding :
    parseTSV nonNumericEmbeddingLine =
      .ok [⟨"T".toList, [], [], "C".toList, List.replicate 1536 Json.jnull⟩] ∧
    (∀ q : ℚ, Json.jnull ≠ Json.jnum q) :=
  ⟨nnLine_parses, fun q h => by cases h⟩

/-- C10: a data line with more than five tab-separated fields, whose first
and fourth fields are nonempty and whose fifth parses as a 1536-element
JSON numeric array, is accepted, and the row is built from the first five
fields only — the parse result equals that of the line truncated to five
fields, so every later field is silently discarded. -/
theorem parseLine_ignores_extra_fields
    (f0 f1 f2 f3 f4 : List Char) (extra : List (List Char)) (xs : List Json)
    (hextra : extra ≠ [])
    (htab : ∀ f ∈ f0 :: f1 :: f2 :: f3 :: f4 :: extra, '\t' ∉ f)
    (h0 : f0 ≠ []) (h3 : f3 ≠ [])
    (h4 : jsonParse f4 = some (.jarr xs)) (hxs : xs.length = 1536)
    (hnum : ∀ x ∈ xs, ∃ q : ℚ, x = .jnum q) :
    parseLine (joinSep '\t' (f0 :: f1 :: f2 :: f3 :: f4 :: extra)) =
      .ok ⟨trimJS f0, trimJS f1, trimJS f2, trimJS f3, xs⟩ ∧
    parseLine (joinSep '\t' (f0 :: f1 :: f2 :: f3 :: f4 :: extra)) =
      parseLine (joinSep '\t' [f0, f1, f2, f3, f4]) := by
  have _hnum := hnum
  have _hextra := hextra
  have h4ne : f4 ≠ [] := by
    intro he
    rw [he] at h4
    have : jsonParse ([] : List Char) = none := by with_unfolding_all rfl
    rw [this] at h4
    cases h4
  have main : ∀ fs : List (List Char),
      splitOnChar '\t' (joinSep '\t' fs) = fs →
      fs.get? 0 = some f0 → fs.get? 1 = some f1 → fs.get? 2 = some f2 →
      fs.get? 3 = some f3 → fs.get? 4 = some f4 →
      parseLine (joinSep '\t' fs) =
        .ok ⟨trimJS f0, trimJS f1, trimJS f2, trimJS f3, xs⟩ := by
    intro fs hsp e0 e1 e2 e3 e4
    unfold parseLine
    dsimp only
    rw [hsp, e0, e1, e2, e3, e4]
    have hcond : (optFalsy (some f0) || optFalsy (some f3) ||
        optFalsy (some f4)) = false := by
      simp only [optFalsy, Bool.or_eq_false_iff]
      refine ⟨⟨?_, ?_⟩, ?_⟩ <;> simpa [List.isEmpty_iff]
    rw [if_neg (fun hc => by rw [hcond] at hc; cases hc)]
    rw [show ((some f4).getD [] : List Char) = f4 from rfl, h4]
    dsimp only
    rw [if_pos hxs]
    rfl
  have hsplit : splitOnChar '\t' (joinSep '\t' (f0 :: f1 :: f2 :: f3 :: f4 :: extra)) =
      f0 :: f1 :: f2 :: f3 :: f4 :: extra :=
    splitOnChar_joinSep (by simp) htab
  have hsplit5 : splitOnChar '\t' (joinSep '\t' [f0, f1, f2, f3, f4]) =
      [f0, f1, f2, f3, f4] :=
    splitOnChar_joinSep (by simp) (fun f hf => htab f (by
      simp only [List.mem_cons, List.not_mem_nil, or_false] at hf ⊢
      tauto))
  have hextra5 : extra ≠ [] → (f0 :: f1 :: f2 :: f3 :: f4 :: extra).length > 5 := by
    intro h
    simp [List.length_pos.2 h]
  refine ⟨main _ hsplit rfl rfl rfl rfl rfl, ?_⟩
  rw [main _ hsplit rfl rfl rfl rfl rfl, main _ hsplit5 rfl rfl rfl rfl rfl]


/-- Witness for C10: a six-field line is accepted and equals the parse of
its five-field truncation. -/
theorem parseLine_ignores_extra_fields_witness :
    parseLine (joinSep '\t' ["T".toList, [], [], "C".toList, emb1536chars,
        "ignored".toList]) =
      .ok ⟨trimJS "T".toList, trimJS [], trimJS [], trimJS "C".toList,
        List.replicate 1536 (Json.jnum 0)⟩ ∧
    parseLine (joinSep '\t' ["T".toList, [], [], "C".toList, emb1536chars,
        "ignored".toList]) =
      parseLine (joinSep '\t' ["T".toList, [], [], "C".toList, emb1536chars]) :=
  parseLine_ignores_extra_fields "T".toList [] [] "C".toList emb1536chars
    ["ignored".toList] (List.replicate 1536 (Json.jnum 0))
    (by simp)
    (by
      intro f hf
      simp only [List.mem_cons, List.not_mem_nil, or_false] at hf
      rcases hf with rfl | rfl | rfl | rfl | rfl | rfl
      · decide
      · decide
      · decide
      · decide
      · exact tab_not_mem_emb
      · decide)
    (by decide)
    (by decide)
    jsonParse_emb1536
    (by simp)
    (fun x hx => ⟨0, List.eq_of_mem_replicate hx⟩)

/-! ## The import pipeline: append-only store evolution -/




theorem StoreExt.rfl (st : Store) : StoreExt st st :=
  ⟨⟨[], by simp⟩, ⟨[], by simp⟩⟩

theorem StoreExt.trans {s1 s2 s3 : Store} (h12 : StoreExt s1 s2)
    (h23 : StoreExt s2 s3) : StoreExt s1 s3 := by
  obtain ⟨⟨d1, hd1⟩, ⟨c1, hc1⟩⟩ := h12
  obtain ⟨⟨d2, hd2⟩, ⟨c2, hc2⟩⟩ := h23
  exact ⟨⟨d1 ++ d2, by rw [hd2, hd1, List.append_assoc]⟩,
    ⟨c1 ++ c2, by rw [hc2, hc1, List.append_assoc]⟩⟩

theorem find?_append_of_isSome {α : Type} {p : α → Bool} {l1 l2 : List α}
    (h : (l1.find? p).isSome) : (l1 ++ l2).find? p = l1.find? p := by
  rw [List.find?_append]
  obtain ⟨x, hx⟩ := Option.isSome_iff_exists.1 h
  rw [hx]
  rfl

theorem StoreExt.findDoc_stable {st st' : Store} (h : StoreExt st st')
    {t u : List Char} {d : Document}
    (hd : findDoc st.documents t u = some d) :
    findDoc st'.documents t u = some d := by
  obtain ⟨⟨ds, hds⟩, _⟩ := h
  unfold findDoc at *
  rw [hds, find?_append_of_isSome (by rw [hd]; rfl), hd]

theorem StoreExt.chunkFound_mono {st st' : Store} (h : StoreExt st st')
    {i : Nat} {c : List Char} (hc : chunkFound st i c) : chunkFound st' i c := by
  obtain ⟨_, ⟨cs, hcs⟩⟩ := h
  unfold chunkFound at *
  rw [hcs, find?_append_of_isSome hc]
  exact hc

theorem GroupDone.mono {st st' : Store} (h : StoreExt st st') :
    ∀ {g : List TSVRow}, GroupDone st g → GroupDone st' g := by
  intro g hg
  cases g with
  | nil => trivial
  | cons f g =>
    obtain ⟨d, hd, hall⟩ := hg
    exact ⟨d, h.findDoc_stable hd, fun r hr => h.chunkFound_mono (hall r hr)⟩

/-- The freshly created document matches its own lookup key. -/
theorem docMatches_iff (t u : List Char) (d : Document) :
    docMatches t u d = true ↔ d.title = t ∧ d.sourceUrl = strOrNull u := by
  unfold docMatches strOrNull
  by_cases hu : u = [] <;> simp [hu]

/-- One chunk step extends the store, leaves the documents unchanged, and
establishes the row's chunk. -/
theorem processChunk_post (upd : Bool) (docId : Nat) (st : Store) (sum : Summary)
    (r : TSVRow) :
    ((processChunk upd docId (st, sum) r).1).documents = st.documents ∧
    (upd = false → StoreExt st (processChunk upd docId (st, sum) r).1 ∧
      chunkFound (processChunk upd docId (st, sum) r).1 docId r.chunkContent) := by
  unfold processChunk
  dsimp only
  rcases hf : st.chunks.find? (chunkMatches docId r.chunkContent) with _ | c
  · refine ⟨rfl, fun _ => ⟨⟨⟨[], by simp⟩, ⟨_, rfl⟩⟩, ?_⟩⟩
    unfold chunkFound
    dsimp only
    rw [List.find?_append, hf]
    have : chunkMatches docId r.chunkContent
        ⟨st.nextId, docId, strOrNull r.sectionTitle, r.chunkContent,
          r.embedding.map jsonToQ⟩ = true := by
      unfold chunkMatches
      simp
    simp [List.find?, this]
  · rcases upd with _ | _
    · refine ⟨rfl, fun _ => ⟨StoreExt.rfl st, ?_⟩⟩
      unfold chunkFound
      simp [hf]
    · refine ⟨by simp, fun h => by cases h⟩

/-- The chunk loop over a group: documents unchanged; in insert-only mode
the store only grows and every row's chunk is present afterwards. -/
theorem processChunks_post (upd : Bool) (docId : Nat) :
    ∀ (g : List TSVRow) (st : Store) (sum : Summary),
    ((processChunks upd docId (st, sum) g).1).documents = st.documents ∧
    (upd = false → StoreExt st (processChunks upd docId (st, sum) g).1 ∧
      ∀ r ∈ g, chunkFound (processChunks upd docId (st, sum) g).1 docId r.chunkContent) := by
  intro g
  induction g with
  | nil => exact fun st sum => ⟨rfl, fun _ => ⟨StoreExt.rfl st, by simp⟩⟩
  | cons r g ih =>
    intro st sum
    have hstep := processChunk_post upd docId st sum r
    rcases hnext : processChunk upd docId (st, sum) r with ⟨st1, sum1⟩
    rw [hnext] at hstep
    have hrest := ih st1 sum1
    have hfold : processChunks upd docId (st, sum) (r :: g) =
        processChunks upd docId (st1, sum1) g := by
      unfold processChunks
      rw [List.foldl_cons, hnext]
    rw [hfold]
    refine ⟨by rw [hrest.1, hstep.1], fun hu => ?_⟩
    obtain ⟨hext1, hfound1⟩ := hstep.2 hu
    obtain ⟨hext2, hfound2⟩ := hrest.2 hu
    refine ⟨hext1.trans hext2, fun x hx => ?_⟩
    rcases List.mem_cons.1 hx with rfl | hm
    · exact hext2.chunkFound_mono hfound1
    · exact hfound2 x hm

/-- One group step: in insert-only mode the store only grows and the group
is done afterwards; in both modes document uniqueness and the absence of
empty-string sources are preserved. -/
theorem processGroup_post (upd : Bool) (g : List TSVRow) (st : Store) (sum : Summary) :
    (upd = false → StoreExt st (processGroup upd (st, sum) g).1 ∧
      GroupDone (processGroup upd (st, sum) g).1 g) ∧
    (st.documents.Pairwise
        (fun d1 d2 => ¬(d1.title = d2.title ∧ d1.sourceUrl = d2.sourceUrl)) →
      ((processGroup upd (st, sum) g).1).documents.Pairwise
        (fun d1 d2 => ¬(d1.title = d2.title ∧ d1.sourceUrl = d2.sourceUrl))) ∧
    ((∀ d ∈ st.documents, d.sourceUrl ≠ some []) →
      ∀ d ∈ ((processGroup upd (st, sum) g).1).documents, d.sourceUrl ≠ some []) := by
  cases g with
  | nil => exact ⟨fun _ => ⟨StoreExt.rfl st, trivial⟩, fun h => h, fun h => h⟩
  | cons f g =>
    unfold processGroup
    dsimp only
    rcases hfd : findDoc st.documents f.documentTitle f.sourceUrl with _ | d
    · -- create the document, then run the chunk loop
      set d0 : Document :=
        ⟨st.nextId, f.documentTitle, strOrNull f.sourceUrl⟩ with hd0
      set st1 : Store :=
        { st with documents := st.documents ++ [d0], nextId := st.nextId + 1 } with hst1
      have hpost := processChunks_post upd d0.id (f :: g) st1
        { sum with documentsCreated := sum.documentsCreated + 1 }
      have hdocs1 : ((processChunks upd d0.id
          (st1, { sum with documentsCreated := sum.documentsCreated + 1 })
          (f :: g)).1).documents = st.documents ++ [d0] := hpost.1
      have hfd1 : findDoc (st.documents ++ [d0]) f.documentTitle f.sourceUrl =
          some d0 := by
        unfold findDoc at hfd ⊢
        rw [List.find?_append, hfd]
        have : docMatches f.documentTitle f.sourceUrl d0 = true :=
          (docMatches_iff _ _ _).2 ⟨rfl, rfl⟩
        simp [List.find?, this]
      refine ⟨fun hu => ?_, fun hpw => ?_, fun hnil => ?_⟩
      · obtain ⟨hext, hall⟩ := hpost.2 hu
        have hext0 : StoreExt st st1 := ⟨⟨[d0], rfl⟩, ⟨[], by simp⟩⟩
        refine ⟨hext0.trans hext, d0, ?_, hall⟩
        rw [hdocs1.symm] at hfd1
        exact hfd1
      · rw [hdocs1]
        rw [List.pairwise_append]
        refine ⟨hpw, List.pairwise_singleton _ _, fun a ha b hb => ?_⟩
        rw [List.mem_singleton] at hb
        subst hb
        rintro ⟨hteq, hueq⟩
        have := List.find?_eq_none.1 hfd a ha
        rw [docMatches_iff] at this
        exact this ⟨hteq, hueq⟩
      · rw [hdocs1]
        intro d2 hd2
        rcases List.mem_append.1 hd2 with hm | hm
        · exact hnil d2 hm
        · rw [List.mem_singleton] at hm
          subst hm
          show strOrNull f.sourceUrl ≠ some []
          unfold strOrNull
          by_cases hu : f.sourceUrl = [] <;> simp [hu]
    · -- document found: only the chunk loop runs
      have hpost := processChunks_post upd d.id (f :: g) st sum
      refine ⟨fun hu => ?_, fun hpw => by rw [hpost.1]; exact hpw,
        fun hnil => by rw [hpost.1]; exact hnil⟩
      obtain ⟨hext, hall⟩ := hpost.2 hu
      refine ⟨hext, d, ?_, hall⟩
      obtain ⟨⟨ds, hds⟩, _⟩ := hext
      unfold findDoc at hfd ⊢
      rw [hds, find?_append_of_isSome (by rw [hfd]; rfl), hfd]

/-- The whole group fold: in insert-only mode the store only grows and every
group is done afterwards. -/
theorem processGroups_post :
    ∀ (gs : List (List Char × List TSVRow)) (st : Store) (sum : Summary),
    StoreExt st (gs.foldl (fun acc kg => processGroup false acc kg.2) (st, sum)).1 ∧
    ∀ kg ∈ gs, GroupDone
      (gs.foldl (fun acc kg => processGroup false acc kg.2) (st, sum)).1 kg.2 := by
  intro gs
  induction gs with
  | nil => exact fun st sum => ⟨StoreExt.rfl st, by simp⟩
  | cons kg gs ih =>
    intro st sum
    have hstep := processGroup_post false kg.2 st sum
    rcases hnext : processGroup false (st, sum) kg.2 with ⟨st1, sum1⟩
    rw [hnext] at hstep
    obtain ⟨hext1, hdone1⟩ := hstep.1 rfl
    have hrest := ih st1 sum1
    have hfold : (kg :: gs).foldl (fun acc kg => processGroup false acc kg.2) (st, sum) =
        gs.foldl (fun acc kg => processGroup false acc kg.2) (st1, sum1) := by
      rw [List.foldl_cons, hnext]
    rw [hfold]
    refine ⟨hext1.trans hrest.1, fun kg2 h2 => ?_⟩
    rcases List.mem_cons.1 h2 with rfl | hm
    · exact GroupDone.mono hrest.1 hdone1
    · exact hrest.2 kg2 hm

/-- In insert-only mode, a chunk loop over rows whose chunks all exist
leaves the store unchanged and counts every row as skipped. -/
theorem processChunks_skip (docId : Nat) :
    ∀ (g : List TSVRow) (st : Store) (sum : Summary),
    (∀ r ∈ g, chunkFound st docId r.chunkContent) →
    processChunks false docId (st, sum) g =
      (st, { sum with chunksSkipped := sum.chunksSkipped + g.length }) := by
  intro g
  induction g with
  | nil => intro st sum _; rfl
  | cons r g ih =>
    intro st sum hall
    obtain ⟨c, hc⟩ := Option.isSome_iff_exists.1 (hall r (List.mem_cons_self r g))
    have hstep : processChunk false docId (st, sum) r =
        (st, { sum with chunksSkipped := sum.chunksSkipped + 1 }) := by
      unfold processChunk
      dsimp only
      rw [hc]
      simp
    have hfold : processChunks false docId (st, sum) (r :: g) =
        processChunks false docId
          (st, { sum with chunksSkipped := sum.chunksSkipped + 1 }) g := by
      unfold processChunks
      rw [List.foldl_cons, hstep]
    rw [hfold, ih st _ (fun x hx => hall x (List.mem_cons_of_mem r hx))]
    show (st, _) = (st, _)
    have : sum.chunksSkipped + 1 + g.length = sum.chunksSkipped + (r :: g).length := by
      simp only [List.length_cons]
      omega
    rw [this]

/-- In insert-only mode, a done group is fully skipped. -/
theorem processGroup_skip (g : List TSVRow) (st : Store) (sum : Summary)
    (hdone : GroupDone st g) :
    processGroup false (st, sum) g =
      (st, { sum with chunksSkipped := sum.chunksSkipped + g.length }) := by
  cases g with
  | nil =>
    show (st, sum) = (st, _)
    simp
  | cons f g =>
    obtain ⟨d, hd, hall⟩ := hdone
    unfold processGroup
    dsimp only
    rw [hd]
    exact processChunks_skip d.id (f :: g) st sum hall

/-- In insert-only mode, a fold over done groups leaves the store unchanged
and skips every row of every group. -/
theorem processGroups_skip :
    ∀ (gs : List (List Char × List TSVRow)) (st : Store) (sum : Summary),
    (∀ kg ∈ gs, GroupDone st kg.2) →
    gs.foldl (fun acc kg => processGroup false acc kg.2) (st, sum) =
      (st, { sum with chunksSkipped :=
        sum.chunksSkipped + (gs.map (fun kg => kg.2.length)).sum }) := by
  intro gs
  induction gs with
  | nil =>
    intro st sum _
    show (st, sum) = (st, _)
    simp
  | cons kg gs ih =>
    intro st sum hall
    rw [List.foldl_cons,
      processGroup_skip kg.2 st sum (hall kg (List.mem_cons_self kg gs)),
      ih st _ (fun x hx => hall x (List.mem_cons_of_mem kg hx))]
    show (st, _) = (st, _)
    have : sum.chunksSkipped + kg.2.length + (gs.map (fun kg => kg.2.length)).sum =
        sum.chunksSkipped + ((kg :: gs).map (fun kg => kg.2.length)).sum := by
      simp only [List.map_cons, List.sum_cons]
      omega
    rw [this]

/-- Group sizes sum to the number of rows. -/
theorem addToGroups_size (r : TSVRow) :
    ∀ gs : List (List Char × List TSVRow),
    ((addToGroups gs r).map (fun kg => kg.2.length)).sum =
      (gs.map (fun kg => kg.2.length)).sum + 1 := by
  intro gs
  induction gs with
  | nil => rfl
  | cons kg gs ih =>
    rcases kg with ⟨k, g⟩
    unfold addToGroups
    by_cases hk : k = groupKey r
    · rw [if_pos hk]
      simp only [List.map_cons, List.sum_cons, List.length_append, List.length_cons,
        List.length_nil]
      omega
    · rw [if_neg hk]
      simp only [List.map_cons, List.sum_cons, ih]
      omega

theorem groupRows_size (rows : List TSVRow) :
    ((groupRows rows).map (fun kg => kg.2.length)).sum = rows.length := by
  suffices h : ∀ (rows : List TSVRow) (gs : List (List Char × List TSVRow)),
      ((rows.foldl addToGroups gs).map (fun kg => kg.2.length)).sum =
        (gs.map (fun kg => kg.2.length)).sum + rows.length by
    have := h rows []
    simpa [groupRows] using this
  intro rows
  induction rows with
  | nil => intro gs; simp
  | cons r rows ih =>
    intro gs
    rw [List.foldl_cons, ih (addToGroups gs r), addToGroups_size r gs]
    simp only [List.length_cons]
    omega

/-! ## Claim C1 -/

/-- C1: re-running `importChunksFromTSV` on the same well-formed file in
insert-only mode creates no documents and no chunks, counts every row as
skipped, and leaves the store exactly as it was. -/
theorem importChunksFromTSV_idempotent (content : List Char)
    (st0 st1 st2 : Store) (s1 s2 : Summary)
    (h1 : importChunksFromTSV false content st0 = .ok (st1, s1))
    (h2 : importChunksFromTSV false content st1 = .ok (st2, s2)) :
    st2 = st1 ∧ s2.documentsCreated = 0 ∧ s2.chunksCreated = 0 ∧
      s2.chunksSkipped = s2.totalRows := by
  unfold importChunksFromTSV at h1 h2
  rcases hp : parseTSV content with e | rows <;> rw [hp] at h1 h2
  · cases h1
  · simp only [Except.map] at h1 h2
    injection h1 with h1
    injection h2 with h2
    have hr1 : importChunksRows false st0 rows = (st1, s1) := by
      rcases hq : importChunksRows false st0 rows with ⟨a, b⟩
      rw [hq] at h1
      cases h1
      rfl
    have hr2 : importChunksRows false st1 rows = (st2, s2) := by
      rcases hq : importChunksRows false st1 rows with ⟨a, b⟩
      rw [hq] at h2
      cases h2
      rfl
    -- the store component of run 1
    have hst1 : ((groupRows rows).foldl
        (fun acc kg => processGroup false acc kg.2) (st0, emptySummary)).1 = st1 := by
      unfold importChunksRows at hr1
      rcases hq : (groupRows rows).foldl
          (fun acc kg => processGroup false acc kg.2) (st0, emptySummary) with ⟨a, b⟩
      rw [hq] at hr1
      dsimp only at hr1
      injection hr1 with ha hb
      exact congrArg Prod.fst hq ▸ ha
    have hdone : ∀ kg ∈ groupRows rows, GroupDone st1 kg.2 := by
      have := (processGroups_post (groupRows rows) st0 emptySummary).2
      rw [hst1] at this
      exact this
    have hrun2 : (groupRows rows).foldl
        (fun acc kg => processGroup false acc kg.2) (st1, emptySummary) =
        (st1, { emptySummary with chunksSkipped :=
          0 + ((groupRows rows).map (fun kg => kg.2.length)).sum }) :=
      processGroups_skip (groupRows rows) st1 emptySummary hdone
    unfold importChunksRows at hr2
    rw [hrun2] at hr2
    dsimp only at hr2
    injection hr2 with ha hb
    subst ha
    subst hb
    refine ⟨rfl, rfl, rfl, ?_⟩
    show 0 + ((groupRows rows).map (fun kg => kg.2.length)).sum = rows.length
    rw [Nat.zero_add, groupRows_size]


/-- Witness for C1: both runs of the one-row file evaluate, and the
idempotence theorem applies to them. -/
theorem importChunksFromTSV_idempotent_witness :
    importChunksFromTSV false wfFile emptyStore =
      .ok (idemStore1, ⟨1, 1, 0, 0, 1⟩) ∧
    importChunksFromTSV false wfFile idemStore1 =
      .ok (idemStore1, ⟨0, 0, 1, 0, 1⟩) ∧
    (⟨0, 0, 1, 0, 1⟩ : Summary).documentsCreated = 0 ∧
    (⟨0, 0, 1, 0, 1⟩ : Summary).chunksCreated = 0 ∧
    (⟨0, 0, 1, 0, 1⟩ : Summary).chunksSkipped = (⟨0, 0, 1, 0, 1⟩ : Summary).totalRows := by
  have hrows1 : importChunksRows false emptyStore [wfRow] =
      ({ documents := [⟨0, "T".toList, none⟩]
         chunks := [⟨1, 0, some "S".toList, "C".toList,
           (List.replicate 1536 (Json.jnum 0)).map jsonToQ⟩]
         nextId := 2 }, ⟨1, 1, 0, 0, 1⟩) := rfl
  have hembed : (List.replicate 1536 (Json.jnum 0)).map jsonToQ =
      List.replicate 1536 (0 : ℚ) := by
    rw [List.map_replicate]
    rfl
  have h1 : importChunksFromTSV false wfFile emptyStore =
      .ok (idemStore1, ⟨1, 1, 0, 0, 1⟩) := by
    unfold importChunksFromTSV
    rw [wfFile_parses]
    show Except.ok (importChunksRows false emptyStore [wfRow]) = _
    rw [hrows1, hembed]
    rfl
  have h2 : importChunksFromTSV false wfFile idemStore1 =
      .ok (idemStore1, ⟨0, 0, 1, 0, 1⟩) := by
    unfold importChunksFromTSV
    rw [wfFile_parses]
    show Except.ok (importChunksRows false idemStore1 [wfRow]) = _
    rfl
  obtain ⟨_, hd, hc, hs⟩ :=
    importChunksFromTSV_idempotent wfFile emptyStore idemStore1 idemStore1
      ⟨1, 1, 0, 0, 1⟩ ⟨0, 0, 1, 0, 1⟩ h1 h2
  exact ⟨h1, h2, hd, hc, hs⟩

/-! ## Claim C3 -/


/-- C3 (amended): ingestion preserves at-most-one-Document-per-(title,
sourceUrl) in both modes, and never stores an empty-string source URL —
an empty-string source is normalized to null at storage, so a row with an
empty source URL resolves to the null-sourced document (empty string and
null are one identity, not two); since duplicates never arise, the Document
for a key is created at most once per run even when the key recurs
non-contiguously (grouping is by key value). -/
theorem import_preserves_document_identity (upd : Bool) (st : Store)
    (rows : List TSVRow) (h : DocUnique st) :
    DocUnique (importChunksRows upd st rows).1 ∧
    ((∀ d ∈ st.documents, d.sourceUrl ≠ some []) →
      ∀ d ∈ ((importChunksRows upd st rows).1).documents, d.sourceUrl ≠ some []) := by
  have hfoldU : ∀ (gs : List (List Char × List TSVRow)) (st : Store) (sum : Summary),
      DocUnique st →
      DocUnique (gs.foldl (fun acc kg => processGroup upd acc kg.2) (st, sum)).1 := by
    intro gs
    induction gs with
    | nil => exact fun st sum hu => hu
    | cons kg gs ih =>
      intro st sum hu
      have hstep := processGroup_post upd kg.2 st sum
      rcases hnext : processGroup upd (st, sum) kg.2 with ⟨st1, sum1⟩
      rw [hnext] at hstep
      have hf : (kg :: gs).foldl (fun acc kg => processGroup upd acc kg.2) (st, sum) =
          gs.foldl (fun acc kg => processGroup upd acc kg.2) (st1, sum1) := by
        rw [List.foldl_cons, hnext]
      rw [hf]
      exact ih st1 sum1 (hstep.2.1 hu)
  have hfoldN : ∀ (gs : List (List Char × List TSVRow)) (st : Store) (sum : Summary),
      (∀ d ∈ st.documents, d.sourceUrl ≠ some []) →
      ∀ d ∈ ((gs.foldl (fun acc kg => processGroup upd acc kg.2) (st, sum)).1).documents,
        d.sourceUrl ≠ some [] := by
    intro gs
    induction gs with
    | nil => exact fun st sum hn => hn
    | cons kg gs ih =>
      intro st sum hn
      have hstep := processGroup_post upd kg.2 st sum
      rcases hnext : processGroup upd (st, sum) kg.2 with ⟨st1, sum1⟩
      rw [hnext] at hstep
      have hf : (kg :: gs).foldl (fun acc kg => processGroup upd acc kg.2) (st, sum) =
          gs.foldl (fun acc kg => processGroup upd acc kg.2) (st1, sum1) := by
        rw [List.foldl_cons, hnext]
      rw [hf]
      exact ih st1 sum1 (hstep.2.2 hn)
  have heq : (importChunksRows upd st rows).1 =
      ((groupRows rows).foldl (fun acc kg => processGroup upd acc kg.2)
        (st, emptySummary)).1 := rfl
  rw [heq]
  exact ⟨hfoldU (groupRows rows) st emptySummary h,
    fun hn => hfoldN (groupRows rows) st emptySummary hn⟩

/-- Witness for C3: the invariant theorem applies to a concrete import. -/
theorem import_preserves_document_identity_witness :
    DocUnique (importChunksRows false emptyStore
      [⟨"T".toList, [], [], "C".toList, []⟩]).1 ∧
    ∀ d ∈ ((importChunksRows false emptyStore
      [⟨"T".toList, [], [], "C".toList, []⟩]).1).documents, d.sourceUrl ≠ some [] := by
  obtain ⟨h1, h2⟩ := import_preserves_document_identity false emptyStore
    [⟨"T".toList, [], [], "C".toList, []⟩] (by simp [DocUnique, emptyStore])
  exact ⟨h1, h2 (by simp [emptyStore])⟩

/-- Counterexample to C3 as stated: a row with an *empty-string* source URL
is stored with a *null* source URL, and a later row with an empty-string
source URL and the same title resolves to that null-sourced document
(documentsCreated = 0) — the empty string is not a distinct identity from
null, contrary to the claim. -/
theorem sourceUrl_empty_conflated_with_null :
    ((importChunksRows false emptyStore
        [⟨"T".toList, [], [], "C".toList, []⟩]).1).documents.map Document.sourceUrl =
      [none] ∧
    (importChunksRows false (importChunksRows false emptyStore
        [⟨"T".toList, [], [], "C".toList, []⟩]).1
      [⟨"T".toList, [], [], "C2".toList, []⟩]).2.documentsCreated = 0 ∧
    ((importChunksRows false (importChunksRows false emptyStore
        [⟨"T".toList, [], [], "C".toList, []⟩]).1
      [⟨"T".toList, [], [], "C2".toList, []⟩]).1).documents.length = 1 := by
  refine ⟨by decide, by decide, by decide⟩

/-! ## Claim C9: character-level facts about the cleaning pass -/

theorem mem_of_mem_trimJS {c : Char} {s : List Char} (h : c ∈ trimJS s) : c ∈ s := by
  unfold trimJS at h
  rw [List.mem_reverse] at h
  have h2 := (List.dropWhile_sublist jsWhite).mem h
  rw [List.mem_reverse] at h2
  exact (List.dropWhile_sublist jsWhite).mem h2

theorem mem_removeMojibake {c : Char} : ∀ {s : List Char},
    c ∈ removeMojibake s → c ∈ s := by
  intro s
  induction s using removeMojibake.induct with
  | case1 rest ih =>
    intro h
    rw [show removeMojibake ('Ô' :: 'ø' :: 'Ω' :: rest) = removeMojibake rest from rfl] at h
    exact List.mem_cons_of_mem _ (List.mem_cons_of_mem _ (List.mem_cons_of_mem _ (ih h)))
  | case2 c0 rest hne ih =>
    intro h
    rw [removeMojibake.eq_2 c0 rest hne] at h
    rcases List.mem_cons.1 h with rfl | hm
    · exact List.mem_cons_self _ _
    · exact List.mem_cons_of_mem _ (ih hm)
  | case3 => intro h; exact h

theorem mem_replacePair {a b r c : Char} {s : List Char}
    (h : c ∈ replacePair a b r s) : c = r ∨ (c ∈ s ∧ c ≠ a ∧ c ≠ b) := by
  obtain ⟨x, hx, hfx⟩ := List.mem_map.1 h
  by_cases hab : x = a ∨ x = b
  · left
    rw [if_pos hab] at hfx
    exact hfx.symm
  · right
    rw [if_neg hab] at hfx
    subst hfx
    push_neg at hab
    exact ⟨hx, hab.1, hab.2⟩

theorem mem_replaceBullet {c : Char} {s : List Char} (h : c ∈ replaceBullet s) :
    c ∈ (['‚', 'Ä', '¢'] : List Char) ∨ c ∈ s := by
  obtain ⟨x, hx, hfx⟩ := List.mem_flatMap.1 h
  by_cases hb : x = '•'
  · rw [if_pos hb] at hfx
    exact Or.inl hfx
  · rw [if_neg hb] at hfx
    rw [List.mem_singleton] at hfx
    exact Or.inr (hfx ▸ hx)

theorem mem_nbspMap {c : Char} {s : List Char}
    (h : c ∈ s.map (fun c => if c = '\u00a0' then ' ' else c)) : c = ' ' ∨ c ∈ s := by
  obtain ⟨x, hx, hfx⟩ := List.mem_map.1 h
  by_cases hb : x = '\u00a0'
  · rw [if_pos hb] at hfx
    exact Or.inl hfx.symm
  · rw [if_neg hb] at hfx
    exact Or.inr (hfx ▸ hx)

theorem collapseRuns_cons_cons (t r c1 c2 : Char) (rest : List Char) :
    collapseRuns t r (c1 :: c2 :: rest) =
      if c1 = t ∧ c2 = t then collapseRuns t r (c2 :: rest)
      else (if c1 = t then r else c1) :: collapseRuns t r (c2 :: rest) := rfl

theorem mem_collapseRuns {t r c : Char} : ∀ {s : List Char},
    c ∈ collapseRuns t r s → c = r ∨ c ∈ s := by
  intro s
  induction s with
  | nil => intro h; exact absurd h (List.not_mem_nil c)
  | cons c1 rest ih =>
    intro h
    cases rest with
    | nil =>
      rw [show collapseRuns t r [c1] = [if c1 = t then r else c1] from rfl,
        List.mem_singleton] at h
      by_cases h1 : c1 = t
      · rw [if_pos h1] at h
        exact Or.inl h
      · rw [if_neg h1] at h
        exact Or.inr (h ▸ List.mem_cons_self c1 [])
    | cons c2 rest2 =>
      rw [collapseRuns_cons_cons] at h
      by_cases hb : c1 = t ∧ c2 = t
      · rw [if_pos hb] at h
        rcases ih h with hr | hm
        · exact Or.inl hr
        · exact Or.inr (List.mem_cons_of_mem c1 hm)
      · rw [if_neg hb] at h
        rcases List.mem_cons.1 h with heq | hm
        · by_cases h1 : c1 = t
          · rw [if_pos h1] at heq
            exact Or.inl heq
          · rw [if_neg h1] at heq
            exact Or.inr (heq ▸ List.mem_cons_self c1 _)
        · rcases ih hm with hr | hm2
          · exact Or.inl hr
          · exact Or.inr (List.mem_cons_of_mem c1 hm2)

theorem collapseRuns_not_target {t r : Char} (hne : t ≠ r) : ∀ {s : List Char},
    t ∉ collapseRuns t r s := by
  intro s
  induction s with
  | nil => exact List.not_mem_nil t
  | cons c1 rest ih =>
    cases rest with
    | nil =>
      rw [show collapseRuns t r [c1] = [if c1 = t then r else c1] from rfl,
        List.mem_singleton]
      by_cases h1 : c1 = t
      · rw [if_pos h1]
        exact hne
      · rw [if_neg h1]
        exact fun h => h1 h.symm
    | cons c2 rest2 =>
      rw [collapseRuns_cons_cons]
      by_cases hb : c1 = t ∧ c2 = t
      · rw [if_pos hb]
        exact ih
      · rw [if_neg hb]
        intro h
        rcases List.mem_cons.1 h with heq | hm
        · by_cases h1 : c1 = t
          · rw [if_pos h1] at heq
            exact hne heq
          · rw [if_neg h1] at heq
            exact h1 heq.symm
        · exact ih hm

theorem collapseRuns_cons_of_ne {t r c2 : Char} (h : c2 ≠ t) (rest : List Char) :
    collapseRuns t r (c2 :: rest) = c2 :: collapseRuns t r rest := by
  cases rest with
  | nil =>
    rw [show collapseRuns t r [c2] = [if c2 = t then r else c2] from rfl, if_neg h]
    rfl
  | cons c3 rest2 =>
    rw [collapseRuns_cons_cons, if_neg (fun hb => h hb.1), if_neg h]

theorem chain'_collapse_spaces : ∀ s : List Char,
    List.Chain' (fun a b => ¬(a = ' ' ∧ b = ' ')) (collapseRuns ' ' ' ' s) := by
  intro s
  induction s with
  | nil => exact List.chain'_nil
  | cons c1 rest ih =>
    cases rest with
    | nil =>
      rw [show collapseRuns ' ' ' ' [c1] = [if c1 = ' ' then ' ' else c1] from rfl]
      exact List.chain'_singleton _
    | cons c2 rest2 =>
      rw [collapseRuns_cons_cons]
      by_cases hb : c1 = ' ' ∧ c2 = ' '
      · rw [if_pos hb]
        exact ih
      · rw [if_neg hb]
        rw [List.chain'_cons']
        refine ⟨?_, ih⟩
        intro y hy
        by_cases h1 : c1 = ' '
        · have h2 : c2 ≠ ' ' := fun hc2 => hb ⟨h1, hc2⟩
          rw [collapseRuns_cons_of_ne h2] at hy
          simp only [List.head?_cons, Option.mem_def, Option.some_inj] at hy
          subst hy
          exact fun hc => h2 hc.2
        · rw [if_neg h1]
          exact fun hc => h1 hc.1

theorem chain'_dropWhile {P : Char → Char → Prop} {p : Char → Bool} :
    ∀ {s : List Char}, List.Chain' P s → List.Chain' P (s.dropWhile p) := by
  intro s
  induction s with
  | nil => intro h; exact h
  | cons c cs ih =>
    intro h
    rw [List.dropWhile_cons]
    by_cases hc : p c = true
    · rw [if_pos hc]
      exact ih h.tail
    · rw [if_neg hc]
      exact h

theorem chain'_trimJS {P : Char → Char → Prop} (hsym : ∀ a b, P a b → P b a)
    {s : List Char} (h : List.Chain' P s) : List.Chain' P (trimJS s) := by
  unfold trimJS
  apply List.chain'_reverse.2
  apply List.Chain'.imp hsym
  apply chain'_dropWhile
  apply List.chain'_reverse.2
  apply List.Chain'.imp hsym
  exact chain'_dropWhile h

/-- Characters of a cleaned field: kept class, no newline, no typographic
quote or dash, and each from the input or introduced by a replacement. -/
theorem cleanFieldContent_chars {s : List Char} {c : Char}
    (h : c ∈ cleanFieldContent s) :
    keepChar c = true ∧ c ≠ '\n' ∧
    c ∉ (['“', '”', '‘', '’', '–', '—'] : List Char) ∧
    (c ∈ s ∨ c ∈ (['"', '\'', '-', '‚', 'Ä', '¢', ' '] : List Char)) := by
  unfold cleanFieldContent at h
  have h9 := mem_of_mem_trimJS h
  rcases mem_collapseRuns h9 with rfl | h8
  · exact ⟨by decide, by decide, by decide, Or.inr (by decide)⟩
  · have hnotn : c ≠ '\n' := fun hc =>
      collapseRuns_not_target (by decide) (hc ▸ h8)
    rcases mem_collapseRuns h8 with rfl | h7
    · exact ⟨by decide, by decide, by decide, Or.inr (by decide)⟩
    · obtain ⟨h6, hkeep⟩ := List.mem_filter.1 h7
      have hprov : (c ∈ s ∧ c ∉ (['“', '”', '‘', '’', '–', '—'] : List Char)) ∨
          c ∈ (['"', '\'', '-', '‚', 'Ä', '¢', ' '] : List Char) := by
        rcases mem_nbspMap h6 with rfl | h5
        · exact Or.inr (by decide)
        · rcases mem_replaceBullet h5 with hb | h4
          · refine Or.inr ?_
            rcases List.mem_cons.1 hb with rfl | hb2
            · decide
            · rcases List.mem_cons.1 hb2 with rfl | hb3
              · decide
              · rcases List.mem_cons.1 hb3 with rfl | hb4
                · decide
                · exact absurd hb4 (List.not_mem_nil c)
          · rcases mem_replacePair h4 with rfl | ⟨h3, hd1, hd2⟩
            · exact Or.inr (by decide)
            · rcases mem_replacePair h3 with rfl | ⟨h2, hq1, hq2⟩
              · exact Or.inr (by decide)
              · rcases mem_replacePair h2 with rfl | ⟨h1, hs1, hs2⟩
                · exact Or.inr (by decide)
                · refine Or.inl ⟨mem_removeMojibake h1, ?_⟩
                  intro hmem
                  rcases List.mem_cons.1 hmem with rfl | hm1
                  · exact hs1 rfl
                  · rcases List.mem_cons.1 hm1 with rfl | hm2
                    · exact hs2 rfl
                    · rcases List.mem_cons.1 hm2 with rfl | hm3
                      · exact hq1 rfl
                      · rcases List.mem_cons.1 hm3 with rfl | hm4
                        · exact hq2 rfl
                        · rcases List.mem_cons.1 hm4 with rfl | hm5
                          · exact hd1 rfl
                          · rcases List.mem_cons.1 hm5 with rfl | hm6
                            · exact hd2 rfl
                            · exact absurd hm6 (List.not_mem_nil c)
      refine ⟨hkeep, hnotn, ?_, ?_⟩
      · rcases hprov with ⟨_, hno⟩ | hin
        · exact hno
        · intro hmem
          revert hin
          rcases List.mem_cons.1 hmem with rfl | hm1
          · decide
          · rcases List.mem_cons.1 hm1 with rfl | hm2
            · decide
            · rcases List.mem_cons.1 hm2 with rfl | hm3
              · decide
              · rcases List.mem_cons.1 hm3 with rfl | hm4
                · decide
                · rcases List.mem_cons.1 hm4 with rfl | hm5
                  · decide
                  · rcases List.mem_cons.1 hm5 with rfl | hm6
                    · decide
                    · exact absurd hm6 (List.not_mem_nil c)
      · rcases hprov with ⟨hin, _⟩ | hin
        · exact Or.inl hin
        · exact Or.inr hin

theorem mem_joinSep {sep c : Char} : ∀ {fs : List (List Char)},
    c ∈ joinSep sep fs → c = sep ∨ ∃ f ∈ fs, c ∈ f := by
  intro fs
  induction fs with
  | nil => intro h; exact absurd h (List.not_mem_nil c)
  | cons f rest ih =>
    cases rest with
    | nil =>
      intro h
      exact Or.inr ⟨f, List.mem_cons_self f [], h⟩
    | cons g rest2 =>
      intro h
      rw [show joinSep sep (f :: g :: rest2) = f ++ sep :: joinSep sep (g :: rest2)
        from rfl] at h
      rcases List.mem_append.1 h with hf | hs
      · exact Or.inr ⟨f, List.mem_cons_self f _, hf⟩
      · rcases List.mem_cons.1 hs with rfl | hm
        · exact Or.inl rfl
        · rcases ih hm with hc | ⟨g2, hg2, hcg⟩
          · exact Or.inl hc
          · exact Or.inr ⟨g2, List.mem_cons_of_mem f hg2, hcg⟩

theorem chain'_joinSep {P : Char → Char → Prop} {sep : Char}
    (hsepL : ∀ x, P x sep) (hsepR : ∀ x, P sep x) : ∀ {fs : List (List Char)},
    (∀ f ∈ fs, List.Chain' P f) → List.Chain' P (joinSep sep fs) := by
  intro fs
  induction fs with
  | nil => intro _; exact List.chain'_nil
  | cons f rest ih =>
    cases rest with
    | nil =>
      intro hall
      exact hall f (List.mem_cons_self f [])
    | cons g rest2 =>
      intro hall
      rw [show joinSep sep (f :: g :: rest2) = f ++ sep :: joinSep sep (g :: rest2)
        from rfl]
      rw [List.chain'_append]
      refine ⟨hall f (List.mem_cons_self f _), ?_, ?_⟩
      · rw [List.chain'_cons']
        exact ⟨fun y _ => hsepR y,
          ih (fun x hx => hall x (List.mem_cons_of_mem f hx))⟩
      · intro x _ y hy
        simp only [List.head?_cons, Option.mem_def, Option.some_inj] at hy
        subst hy
        exact hsepL x

/-- A cleaned field has no two consecutive spaces. -/
theorem chain'_cleanFieldContent (s : List Char) :
    List.Chain' (fun a b => ¬(a = ' ' ∧ b = ' ')) (cleanFieldContent s) := by
  unfold cleanFieldContent
  exact chain'_trimJS (fun a b h hc => h ⟨hc.2, hc.1⟩) (chain'_collapse_spaces _)

theorem splitOnChar_ne_nil (sep : Char) : ∀ s : List Char,
    splitOnChar sep s ≠ [] := by
  intro s
  cases s with
  | nil => exact fun h => List.cons_ne_nil _ _ h
  | cons c cs =>
    simp only [splitOnChar]
    by_cases hc : c = sep
    · rw [if_pos hc]
      exact List.cons_ne_nil _ _
    · rw [if_neg hc]
      cases hs : splitOnChar sep cs with
      | nil => exact List.cons_ne_nil _ _
      | cons f rest => exact List.cons_ne_nil _ _

theorem findIdx?_lt_length_aux {α : Type} {p : α → Bool} : ∀ {ls : List α} {i j : Nat},
    List.findIdx? p ls j = some i → i < j + ls.length := by
  intro ls
  induction ls with
  | nil =>
    intro i j h
    simp [List.findIdx?] at h
  | cons x xs ih =>
    intro i j h
    rw [List.findIdx?_cons] at h
    by_cases hp : p x = true
    · rw [if_pos hp] at h
      injection h with h
      subst h
      simp only [List.length_cons]
      omega
    · rw [if_neg hp] at h
      have := ih h
      simp only [List.length_cons]
      omega

theorem findIdx?_lt_length {α : Type} {p : α → Bool} {ls : List α} {i : Nat}
    (h : ls.findIdx? p = some i) : i < ls.length := by
  have := findIdx?_lt_length_aux h
  omega

/-- The header line selected by `findHeaderIdx` is one of the input lines. -/
theorem header_mem_lines (ls : List (List Char)) (hne : ls ≠ []) :
    ls.getD (findHeaderIdx ls) [] ∈ ls := by
  unfold findHeaderIdx
  cases hfi : ls.findIdx? (fun l => headerTag.isPrefixOf l) with
  | none =>
    simp only [Option.getD_none]
    cases ls with
    | nil => exact absurd rfl hne
    | cons x xs => exact List.mem_cons_self x xs
  | some i =>
    simp only [Option.getD_some]
    have hlt := findIdx?_lt_length hfi
    rw [List.getD_eq_getElem?_getD, List.getElem?_eq_getElem hlt]
    exact List.getElem_mem hlt

/-- Splitting a cleaned row recovers exactly the cleaned fields: field count
and order are preserved. -/
theorem cleanRow_fields (row : List Char) :
    splitOnChar '\t' (cleanRow row) =
      (splitOnChar '\t' row).map cleanFieldContent := by
  unfold cleanRow
  apply splitOnChar_joinSep
  · intro h
    exact splitOnChar_ne_nil '\t' row (List.map_eq_nil_iff.1 h)
  · intro f hf
    obtain ⟨f0, hf0, rfl⟩ := List.mem_map.1 hf
    intro htab
    rcases (cleanFieldContent_chars htab).2.2.2 with hin | hintro
    · exact splitOnChar_mem_no_sep hf0 hin
    · revert hintro
      decide

/-- A cleaned row has no two consecutive spaces (tabs separate the cleaned
fields, and each cleaned field is space-collapsed). -/
theorem cleanRow_noDoubleSpace (row : List Char) :
    List.Chain' (fun a b => ¬(a = ' ' ∧ b = ' ')) (cleanRow row) := by
  unfold cleanRow
  apply chain'_joinSep
  · intro x hc
    exact absurd hc.2 (by decide)
  · intro x hc
    exact absurd hc.1 (by decide)
  · intro f hf
    obtain ⟨f0, _, rfl⟩ := List.mem_map.1 hf
    exact chain'_cleanFieldContent f0

/-- C9 (amended): every row the repair-and-clean pass emits has typographic
quotes and en/em dashes replaced (none survive), contains no newline, no
run of two or more consecutive spaces, and only characters of the retained
class; the header line written to the output is one of the input's lines,
unchanged; and each repaired row is cleaned field-by-field, preserving
field count and order.  The original claim's "no Unicode replacement
characters" is dropped: U+FFFD lies inside the retained range
`\u0080-￿` and passes through (the pass instead deletes the
three-character mojibake spelling `ÔøΩ`); see the counterexample. -/
theorem cleanEncoding_normalizes (content : List Char) :
    (∀ row ∈ (cleanEncoding content).2,
      (∀ c ∈ row, keepChar c = true) ∧
      (∀ c ∈ row, c ∉ (['“', '”', '‘', '’', '–', '—'] : List Char)) ∧
      '\n' ∉ row ∧
      List.Chain' (fun a b => ¬(a = ' ' ∧ b = ' ')) row) ∧
    (cleanEncoding content).1 ∈ splitOnChar '\n' content ∧
    ∀ row0 ∈ repairRows
        ((splitOnChar '\t' ((splitOnChar '\n' content).getD
          (findHeaderIdx (splitOnChar '\n' content)) [])).length)
        ((splitOnChar '\n' content).drop
          (findHeaderIdx (splitOnChar '\n' content) + 1)),
      cleanRow row0 ∈ (cleanEncoding content).2 ∧
      splitOnChar '\t' (cleanRow row0) =
        (splitOnChar '\t' row0).map cleanFieldContent := by
  refine ⟨?_, ?_, ?_⟩
  · intro row hrow
    obtain ⟨row0, _, rfl⟩ := List.mem_map.1 hrow
    refine ⟨?_, ?_, ?_, cleanRow_noDoubleSpace row0⟩
    · intro c hc
      rcases mem_joinSep hc with rfl | ⟨f, hf, hcf⟩
      · decide
      · obtain ⟨f0, _, rfl⟩ := List.mem_map.1 hf
        exact (cleanFieldContent_chars hcf).1
    · intro c hc
      rcases mem_joinSep hc with rfl | ⟨f, hf, hcf⟩
      · decide
      · obtain ⟨f0, _, rfl⟩ := List.mem_map.1 hf
        exact (cleanFieldContent_chars hcf).2.2.1
    · intro hc
      rcases mem_joinSep hc with heq | ⟨f, hf, hcf⟩
      · exact absurd heq (by decide)
      · obtain ⟨f0, _, rfl⟩ := List.mem_map.1 hf
        exact (cleanFieldContent_chars hcf).2.1 rfl
  · exact header_mem_lines _ (splitOnChar_ne_nil '\n' content)
  · intro row0 hrow0
    exact ⟨List.mem_map_of_mem cleanRow hrow0, cleanRow_fields row0⟩

/-- Witness for C9: the concrete input's cleaned row satisfies the
normalization facts, with the typographic quotes mapped to `"` and the
space run collapsed; the header is a line of the input. -/
theorem cleanEncoding_normalizes_witness :
    ("x\"y\"\tz w".toList ∈ (cleanEncoding c9WitnessContent).2) ∧
    (∀ c ∈ ("x\"y\"\tz w".toList : List Char), keepChar c = true) ∧
    (∀ c ∈ ("x\"y\"\tz w".toList : List Char),
      c ∉ (['“', '”', '‘', '’', '–', '—'] : List Char)) ∧
    '\n' ∉ ("x\"y\"\tz w".toList : List Char) ∧
    List.Chain' (fun a b => ¬(a = ' ' ∧ b = ' ')) ("x\"y\"\tz w".toList : List Char) ∧
    (cleanEncoding c9WitnessContent).1 ∈ splitOnChar '\n' c9WitnessContent := by
  obtain ⟨hrows, hheader, _⟩ := cleanEncoding_normalizes c9WitnessContent
  have hmem : ("x\"y\"\tz w".toList : List Char) ∈
      (cleanEncoding c9WitnessContent).2 := by decide
  obtain ⟨h1, h2, h3, h4⟩ := hrows _ hmem
  exact ⟨hmem, h1, h2, h3, h4, hheader⟩

/-- Counterexample to C9 as stated: the Unicode replacement character
U+FFFD lies inside the retained range `\u0080-￿`, so a data field
containing it passes through the cleaning pass unchanged and the emitted
row still contains a replacement character. -/
theorem cleanEncoding_keeps_replacement_char :
    (cleanEncoding replCharContent).2 = ["a�\tb".toList] ∧
    '�' ∈ ("a�\tb".toList : List Char) :=
  ⟨by decide, by decide⟩

end DFRN
